import Mathlib

/-!
Verification of the UTXO-indexer ledger engine.

The definitions below are a shallow embedding of the engine's source:
the five store relations (blocks, transactions, outputs, inputs,
address_balances) are lists of typed rows, the SQL queries of
`src/db/queries.ts` become functions on that state, the services
(`balance.service.ts` block validation / application and
`rollback.service.ts`) become `Except`-valued state transformers, and the
block-id hasher is a full SHA-256 implementation over `Nat` words
(mirroring `createHash('sha256')` with UTF-8 input and lowercase hex
output).  A write transaction that aborts (`BEGIN` … `ROLLBACK`) leaves
the committed state unchanged, so a failing operation returns
`Except.error` and the caller keeps the pre-state.
-/

namespace UtxoIndexer

/-! ## Block JSON model (`src/types/block.types.ts`) -/

/-- An input of a submitted transaction: a reference `{txId, index}` to the
output it spends. -/
structure TxInput where
  txId : String
  index : Nat
deriving DecidableEq, Repr

/-- An output of a submitted transaction: `{address, value}`. -/
structure TxOutput where
  address : String
  value : Int
deriving DecidableEq, Repr

/-- A transaction of a submitted block. -/
structure Transaction where
  id : String
  inputs : List TxInput
  outputs : List TxOutput
deriving DecidableEq, Repr

/-- A submitted block. -/
structure Block where
  id : String
  height : Nat
  transactions : List Transaction
deriving DecidableEq, Repr

/-! ## Store rows (schema of `src/db/index.ts` / `initializeDatabase`) -/

/-- A row of the `outputs` relation: key `(transaction_id, output_index)`,
payload `(address, value, spent)`. -/
structure OutputRow where
  txId : String
  index : Nat
  address : String
  value : Int
  spent : Bool
deriving DecidableEq, Repr

/-- A row of the `inputs` relation: owning `transaction_id` plus the
`(spent_transaction_id, spent_output_index)` reference. -/
structure InputRow where
  txId : String
  spentTxId : String
  spentIndex : Nat
deriving DecidableEq, Repr

/-- The five logical relations of the store.  `blocks` holds
`(id, height)`, `txs` holds `(id, block_id)`, `balances` holds
`(address, balance)`. -/
structure Store where
  blocks : List (String × Nat)
  txs : List (String × String)
  outputs : List OutputRow
  inputs : List InputRow
  balances : List (String × Int)
deriving DecidableEq, Repr

/-- The empty store (fresh schema). -/
def Store.empty : Store := ⟨[], [], [], [], []⟩

/-! ## SHA-256 (the hasher behind `createHash('sha256')`) -/

/-- 32-bit rotate right. -/
def rotr (x n : Nat) : Nat := ((x >>> n) ||| (x <<< (32 - n))) % 4294967296

/-- SHA-256 `Ch` function. -/
def ch (x y z : Nat) : Nat := (x &&& y) ^^^ ((4294967295 ^^^ x) &&& z)

/-- SHA-256 `Maj` function. -/
def maj (x y z : Nat) : Nat := (x &&& y) ^^^ (x &&& z) ^^^ (y &&& z)

/-- SHA-256 Σ₀. -/
def bigSigma0 (x : Nat) : Nat := rotr x 2 ^^^ rotr x 13 ^^^ rotr x 22

/-- SHA-256 Σ₁. -/
def bigSigma1 (x : Nat) : Nat := rotr x 6 ^^^ rotr x 11 ^^^ rotr x 25

/-- SHA-256 σ₀. -/
def smallSigma0 (x : Nat) : Nat := rotr x 7 ^^^ rotr x 18 ^^^ (x >>> 3)

/-- SHA-256 σ₁. -/
def smallSigma1 (x : Nat) : Nat := rotr x 17 ^^^ rotr x 19 ^^^ (x >>> 10)

/-- The 64 SHA-256 round constants. -/
def kConstants : List Nat :=
  [1116352408, 1899447441, 3049323471, 3921009573, 961987163, 1508970993,
   2453635748, 2870763221, 3624381080, 310598401, 607225278, 1426881987,
   1925078388, 2162078206, 2614888103, 3248222580, 3835390401, 4022224774,
   264347078, 604807628, 770255983, 1249150122, 1555081692, 1996064986,
   2554220882, 2821834349, 2952996808, 3210313671, 3336571891, 3584528711,
   113926993, 338241895, 666307205, 773529912, 1294757372, 1396182291,
   1695183700, 1986661051, 2177026350, 2456956037, 2730485921, 2820302411,
   3259730800, 3345764771, 3516065817, 3600352804, 4094571909, 275423344,
   430227734, 506948616, 659060556, 883997877, 958139571, 1322822218,
   1537002063, 1747873779, 1955562222, 2024104815, 2227730452, 2361852424,
   2428436474, 2756734187, 3204031479, 3329325298]

/-- The 8 initial SHA-256 hash words. -/
def initHash : List Nat :=
  [1779033703, 3144134277, 1013904242, 2773480762, 1359893119, 2600822924,
   528734635, 1541459225]

/-- Split a byte list into 64-byte chunks; the fuel bounds the number of
chunks and is instantiated with the list length. -/
def toChunksFuel : Nat → List Nat → List (List Nat)
  | 0, _ => []
  | _, [] => []
  | fuel + 1, a :: l => ((a :: l).take 64) :: toChunksFuel fuel ((a :: l).drop 64)

/-- Split a byte list into 64-byte chunks. -/
def toChunks (l : List Nat) : List (List Nat) := toChunksFuel l.length l

/-- Big-endian 4-byte groups to 32-bit words. -/
def bytesToWords : List Nat → List Nat
  | a :: b :: c :: d :: rest => (((a * 256 + b) * 256 + c) * 256 + d) :: bytesToWords rest
  | _ => []

/-- Read a word of the message schedule (0 out of range). -/
def wordOf (w : Array Nat) (n : Nat) : Nat := w.getD n 0

/-- Append the next schedule word. -/
def stepW (w : Array Nat) : Array Nat :=
  let n := w.size
  w.push ((smallSigma1 (wordOf w (n - 2)) + wordOf w (n - 7) +
           smallSigma0 (wordOf w (n - 15)) + wordOf w (n - 16)) % 4294967296)

/-- Extend the 16 chunk words to the 64 schedule words. -/
def extendTo64 (w : Array Nat) : Array Nat :=
  (List.range 48).foldl (fun acc _ => stepW acc) w

/-- One SHA-256 compression round, acting on `[a,b,c,d,e,f,g,h]`. -/
def compressStep (st : List Nat) (kw : Nat × Nat) : List Nat :=
  match st with
  | [a, b, c, d, e, f, g, h] =>
    let t1 := (h + bigSigma1 e + ch e f g + kw.1 + kw.2) % 4294967296
    let t2 := (bigSigma0 a + maj a b c) % 4294967296
    [(t1 + t2) % 4294967296, a, b, c, (d + t1) % 4294967296, e, f, g]
  | st => st

/-- Process one 64-byte chunk. -/
def processChunk (hs : List Nat) (chunk : List Nat) : List Nat :=
  let w := (extendTo64 (bytesToWords chunk).toArray).toList
  let st := (kConstants.zip w).foldl compressStep hs
  (hs.zip st).map (fun p => (p.1 + p.2) % 4294967296)

/-- Big-endian bytes of a 32-bit word. -/
def wordBytes (w : Nat) : List Nat :=
  [w / 16777216 % 256, w / 65536 % 256, w / 256 % 256, w % 256]

/-- Zero padding placed between the `0x80` byte and the length field. -/
def zeroPad (len : Nat) : List Nat := List.replicate ((119 - len % 64) % 64) 0

/-- Big-endian 64-bit message length in bits. -/
def lengthBytes (len : Nat) : List Nat :=
  let bits := 8 * len
  [bits / 72057594037927936 % 256, bits / 281474976710656 % 256,
   bits / 1099511627776 % 256, bits / 4294967296 % 256,
   bits / 16777216 % 256, bits / 65536 % 256, bits / 256 % 256, bits % 256]

/-- SHA-256 digest (32 bytes) of a byte list. -/
def sha256Bytes (msg : List Nat) : List Nat :=
  let padded := msg ++ 128 :: (zeroPad msg.length ++ lengthBytes msg.length)
  ((toChunks padded).foldl processChunk initHash).flatMap wordBytes

/-- Lowercase hex digit. -/
def hexChar (n : Nat) : Char := if n < 10 then Char.ofNat (48 + n) else Char.ofNat (87 + n)

/-- Two lowercase hex digits of a byte. -/
def byteHex (b : Nat) : String := String.mk [hexChar (b / 16), hexChar (b % 16)]

/-- Lowercase hex rendering of a byte list. -/
def bytesToHex (bs : List Nat) : String := String.join (bs.map byteHex)

/-- The UTF-8 bytes of a string (the model of `String.toUTF8`). -/
def strBytes (s : String) : List Nat :=
  (s.data.flatMap String.utf8EncodeChar).map (fun b => b.toNat)

/-- `createHash('sha256').update(msg).digest('hex')`: SHA-256 of the UTF-8
bytes of `msg`, rendered as lowercase hex. -/
def sha256Hex (msg : String) : String :=
  bytesToHex (sha256Bytes (strBytes msg))

/-! ## Queries (`src/db/queries.ts`) -/

/-- `SELECT MAX(height) FROM blocks` (`getCurrentHeight`): `none` when the
relation is empty. -/
def getCurrentHeight (s : Store) : Option Nat := (s.blocks.map (fun b => b.2)).max?

/-- The unique row of `outputs` with key `(txId, index)`, if any. -/
def findOutput (s : Store) (txId : String) (index : Nat) : Option OutputRow :=
  s.outputs.find? (fun o => o.txId == txId && o.index == index)

/-- `getOutputValue`: `none` when the output row is absent, a thrown error
when it is present but `spent = TRUE`, its value otherwise. -/
def getOutputValue (s : Store) (txId : String) (index : Nat) : Except String (Option Int) :=
  match findOutput s txId index with
  | none => .ok none
  | some o =>
    if o.spent then
      .error ("Output " ++ txId ++ ":" ++ toString index ++ " has already been spent")
    else .ok (some o.value)

/-- `getOutputAddress`: the address of the referenced output, if present. -/
def getOutputAddress (s : Store) (txId : String) (index : Nat) : Option String :=
  (findOutput s txId index).map (fun o => o.address)

/-- `insertBlock`: plain `INSERT INTO blocks`; the primary key on `id` and
the `UNIQUE` constraint on `height` reject duplicates. -/
def insertBlock (s : Store) (blockId : String) (height : Nat) : Except String Store :=
  if s.blocks.any (fun b => b.1 == blockId || b.2 == height) then
    .error "blocks: unique constraint violation"
  else .ok { s with blocks := s.blocks ++ [(blockId, height)] }

/-- `insertTransaction`: plain `INSERT INTO transactions`; primary key on
`id`, foreign key `block_id → blocks(id)`. -/
def insertTransaction (s : Store) (transactionId blockId : String) : Except String Store :=
  if s.txs.any (fun t => t.1 == transactionId) then
    .error "transactions: primary key violation"
  else if !(s.blocks.any (fun b => b.1 == blockId)) then
    .error "transactions: block_id foreign key violation"
  else .ok { s with txs := s.txs ++ [(transactionId, blockId)] }

/-- `insertOutput`: `INSERT INTO outputs … ON CONFLICT (transaction_id,
output_index) DO NOTHING`, with the `transaction_id` foreign key; new rows
carry `spent = FALSE`. -/
def insertOutput (s : Store) (transactionId : String) (outputIndex : Nat)
    (address : String) (value : Int) : Except String Store :=
  if s.outputs.any (fun o => o.txId == transactionId && o.index == outputIndex) then
    .ok s
  else if !(s.txs.any (fun t => t.1 == transactionId)) then
    .error "outputs: transaction_id foreign key violation"
  else .ok { s with outputs :=
    s.outputs ++ [⟨transactionId, outputIndex, address, value, false⟩] }

/-- `insertInput`: plain `INSERT INTO inputs`, with foreign keys on the
owning `transaction_id` and on `(spent_transaction_id, spent_output_index)`. -/
def insertInput (s : Store) (transactionId spentTransactionId : String)
    (spentOutputIndex : Nat) : Except String Store :=
  if !(s.txs.any (fun t => t.1 == transactionId)) then
    .error "inputs: transaction_id foreign key violation"
  else if !(s.outputs.any (fun o =>
      o.txId == spentTransactionId && o.index == spentOutputIndex)) then
    .error "inputs: spent output foreign key violation"
  else .ok { s with inputs :=
    s.inputs ++ [⟨transactionId, spentTransactionId, spentOutputIndex⟩] }

/-- `markOutputAsSpent`: `UPDATE outputs SET spent = TRUE WHERE
transaction_id = $1 AND output_index = $2`. -/
def markOutputAsSpent (s : Store) (transactionId : String) (outputIndex : Nat) : Store :=
  { s with outputs := s.outputs.map (fun o =>
      if o.txId == transactionId && o.index == outputIndex then
        { o with spent := true }
      else o) }

/-- `updateAddressBalance`: upsert on `address_balances` adding `delta`
(insert the delta as initial balance when the row is absent). -/
def updateAddressBalance (s : Store) (address : String) (delta : Int) : Store :=
  if s.balances.any (fun r => r.1 == address) then
    { s with balances := s.balances.map (fun r =>
        if r.1 == address then (r.1, r.2 + delta) else r) }
  else { s with balances := s.balances ++ [(address, delta)] }

/-- `getAddressBalance`: read the cached balance, `0` when the row is
absent. -/
def getAddressBalance (s : Store) (address : String) : Int :=
  match s.balances.find? (fun r => r.1 == address) with
  | some r => r.2
  | none => 0

/-- `calculateAddressBalance`: `SELECT COALESCE(SUM(value), 0) FROM outputs
WHERE address = $1 AND spent = FALSE`. -/
def calculateAddressBalance (s : Store) (address : String) : Int :=
  ((s.outputs.filter (fun o => o.address == address && o.spent == false)).map
    (fun o => o.value)).sum

/-- The ids of the blocks a rollback to `height` deletes. -/
def deadBlockIdsOf (s : Store) (height : Int) : List String :=
  (s.blocks.filter (fun b => decide ((b.2 : Int) > height))).map (fun b => b.1)

/-- The ids of the transactions cascade-deleted with those blocks. -/
def deadTxIdsOf (s : Store) (height : Int) : List String :=
  (s.txs.filter (fun t => (deadBlockIdsOf s height).contains t.2)).map (fun t => t.1)

/-- The output rows cascade-deleted with those transactions. -/
def deadOutputsOf (s : Store) (height : Int) : List OutputRow :=
  s.outputs.filter (fun o => (deadTxIdsOf s height).contains o.txId)

/-- `deleteBlocksAboveHeight`: `DELETE FROM blocks WHERE height > $1`; the
`ON DELETE CASCADE` clauses delete the transactions of the deleted blocks,
the outputs and inputs of those transactions, and every input whose
referenced output is deleted. -/
def deleteBlocksAboveHeight (s : Store) (height : Int) : Store :=
  { s with
    blocks := s.blocks.filter (fun b => !(decide ((b.2 : Int) > height))),
    txs := s.txs.filter (fun t => !((deadBlockIdsOf s height).contains t.2)),
    outputs := s.outputs.filter (fun o => !((deadTxIdsOf s height).contains o.txId)),
    inputs := s.inputs.filter (fun i => !((deadTxIdsOf s height).contains i.txId) &&
      !((deadOutputsOf s height).any (fun o =>
        o.txId == i.spentTxId && o.index == i.spentIndex))) }

/-- `resetSpentOutputs`: `UPDATE outputs SET spent = FALSE WHERE spent =
TRUE AND NOT EXISTS (SELECT 1 FROM inputs WHERE …)`. -/
def resetSpentOutputs (s : Store) : Store :=
  { s with outputs := s.outputs.map (fun o =>
      if o.spent && !(s.inputs.any (fun i =>
          i.spentTxId == o.txId && i.spentIndex == o.index)) then
        { o with spent := false }
      else o) }

/-- `recalculateAllBalances`: clear `address_balances`, then insert one row
per address of an unspent output, carrying the sum of those values. -/
def recalculateAllBalances (s : Store) : Store :=
  let addrs := ((s.outputs.filter (fun o => o.spent == false)).map
    (fun o => o.address)).dedup
  { s with balances := addrs.map (fun a => (a, calculateAddressBalance s a)) }

/-! ## Balance service (`src/services/balance.service.ts`) -/

/-- `getBalance`: the served balance, computed directly from unspent
outputs via `calculateAddressBalance`. -/
def getBalance (s : Store) (address : String) : Int := calculateAddressBalance s address

/-- `getCachedBalance`: the balance read from the `address_balances`
cache. -/
def getCachedBalance (s : Store) (address : String) : Int := getAddressBalance s address

/-! ## Validator (`validateBlock`) -/

/-- A typed rendering of the `BlockValidationError`s thrown by
`validateBlock`; the spec names these codes `INVALID_HEIGHT`,
`DOUBLE_SPEND`, `NONEXISTENT_OUTPUT`, `ALREADY_SPENT`, `SUM_MISMATCH` and
`INVALID_BLOCK_ID`. -/
inductive VErr where
  | invalidHeight (expected actual : Nat)
  | doubleSpend (txId : String) (index : Nat)
  | nonexistentOutput (txId : String) (index : Nat)
  | alreadySpent (txId : String) (index : Nat)
  | sumMismatch (txId : String) (inputSum outputSum : Int)
  | invalidBlockId (expected actual : String)
deriving DecidableEq, Repr

/-- The human message carried by each `BlockValidationError`. -/
def VErr.message : VErr → String
  | .invalidHeight e a =>
    "Invalid block height. Expected " ++ toString e ++ ", got " ++ toString a
  | .doubleSpend t i =>
    "Double-spend detected: output " ++ t ++ ":" ++ toString i ++
      " is referenced multiple times in this block"
  | .nonexistentOutput t i =>
    "Input references non-existent output: " ++ t ++ ":" ++ toString i
  | .alreadySpent t i =>
    "Input references already spent output: " ++ t ++ ":" ++ toString i
  | .sumMismatch id i o =>
    "Input/output sum mismatch for transaction " ++ id ++ ". Inputs: " ++
      toString i ++ ", Outputs: " ++ toString o
  | .invalidBlockId e a =>
    "Invalid block ID. Expected " ++ e ++ ", got " ++ a

/-- The `SpentInBlock` key `` `${txId}:${index}` ``. -/
def outputKey (txId : String) (index : Nat) : String := txId ++ ":" ++ toString index

/-- The expected height `currentHeight === null ? 1 : currentHeight + 1`. -/
def expectedHeight (s : Store) : Nat :=
  match getCurrentHeight s with
  | none => 1
  | some h => h + 1

/-- The per-input walk of the economic check: double-spend test against the
accumulated `spentOutputs` keys, then the referenced-output lookup
(absent → non-existent, thrown "already been spent" → already spent).
Returns the grown key set and the transaction's input sum. -/
def validateInputs (s : Store) (spentOutputs : List String) :
    List TxInput → Except VErr (List String × Int)
  | [] => .ok (spentOutputs, 0)
  | inp :: rest =>
    if spentOutputs.contains (outputKey inp.txId inp.index) then
      .error (.doubleSpend inp.txId inp.index)
    else
      match getOutputValue s inp.txId inp.index with
      | .error _ => .error (.alreadySpent inp.txId inp.index)
      | .ok none => .error (.nonexistentOutput inp.txId inp.index)
      | .ok (some v) =>
        match validateInputs s (outputKey inp.txId inp.index :: spentOutputs) rest with
        | .error e => .error e
        | .ok (sp, restSum) => .ok (sp, v + restSum)

/-- The per-transaction walk of the economic check: validate the inputs,
then require `inputSum = outputSum` for transactions with at least one
input. -/
def validateTransactions (s : Store) (spentOutputs : List String) :
    List Transaction → Except VErr (List String)
  | [] => .ok spentOutputs
  | t :: rest =>
    match validateInputs s spentOutputs t.inputs with
    | .error e => .error e
    | .ok (sp, inSum) =>
      if t.inputs.length > 0 && inSum != t.outputs.foldl (fun acc o => acc + o.value) 0 then
        .error (.sumMismatch t.id inSum (t.outputs.foldl (fun acc o => acc + o.value) 0))
      else validateTransactions s sp rest

/-- The tx-id sort used by the hasher (JavaScript's default lexicographic
`Array.sort`). -/
def sortStrings (l : List String) : List String := l.mergeSort (fun a b => a ≤ b)

/-- The canonical block id: SHA-256 (lowercase hex) of the decimal height
concatenated with the sorted transaction ids joined without separator. -/
def computeBlockId (height : Nat) (txIds : List String) : String :=
  sha256Hex (toString height ++ String.join (sortStrings txIds))

/-- `validateBlock`: height check, then the economic walk, then the
block-id hash check; the first failure aborts.  Read-only on the store. -/
def validateBlock (s : Store) (b : Block) : Except VErr Unit :=
  if b.height != expectedHeight s then
    .error (.invalidHeight (expectedHeight s) b.height)
  else
    match validateTransactions s [] b.transactions with
    | .error e => .error e
    | .ok _ =>
      if b.id != computeBlockId b.height (b.transactions.map (fun t => t.id)) then
        .error (.invalidBlockId
          (computeBlockId b.height (b.transactions.map (fun t => t.id))) b.id)
      else .ok ()

/-! ## Applier (`processBlock` / `processBlockTransaction`) -/

/-- Apply one input: look up the referenced output's value and address,
mark it spent, insert the input row, subtract the value from the owner's
balance.  Any lookup failure aborts the enclosing transaction. -/
def applyInput (s : Store) (transactionId : String) (inp : TxInput) : Except String Store :=
  match getOutputValue s inp.txId inp.index with
  | .error e => .error e
  | .ok none => .error ("Output " ++ inp.txId ++ ":" ++ toString inp.index ++ " does not exist")
  | .ok (some v) =>
    match getOutputAddress s inp.txId inp.index with
    | none => .error ("Output " ++ inp.txId ++ ":" ++ toString inp.index ++ " address not found")
    | some addr =>
      if addr == "" then
        .error ("Output " ++ inp.txId ++ ":" ++ toString inp.index ++ " address not found")
      else
        match insertInput (markOutputAsSpent s inp.txId inp.index)
            transactionId inp.txId inp.index with
        | .error e => .error e
        | .ok s' => .ok (updateAddressBalance s' addr (-v))

/-- Apply the inputs of a transaction in submission order. -/
def applyInputs (s : Store) (transactionId : String) : List TxInput → Except String Store
  | [] => .ok s
  | inp :: rest =>
    match applyInput s transactionId inp with
    | .error e => .error e
    | .ok s' => applyInputs s' transactionId rest

/-- Apply the outputs of a transaction in order, `i` being the running
output index: insert the unspent row and add the value to the recipient's
balance. -/
def applyOutputs (s : Store) (transactionId : String) (i : Nat) :
    List TxOutput → Except String Store
  | [] => .ok s
  | o :: rest =>
    match insertOutput s transactionId i o.address o.value with
    | .error e => .error e
    | .ok s' => applyOutputs (updateAddressBalance s' o.address o.value)
        transactionId (i + 1) rest

/-- `processBlockTransaction`: insert the transaction row, then its inputs,
then its outputs. -/
def processBlockTransaction (s : Store) (t : Transaction) (blockId : String) :
    Except String Store :=
  match insertTransaction s t.id blockId with
  | .error e => .error e
  | .ok s1 =>
    match applyInputs s1 t.id t.inputs with
    | .error e => .error e
    | .ok s2 => applyOutputs s2 t.id 0 t.outputs

/-- Apply the transactions of a block in submission order. -/
def applyTransactions (s : Store) (blockId : String) :
    List Transaction → Except String Store
  | [] => .ok s
  | t :: rest =>
    match processBlockTransaction s t blockId with
    | .error e => .error e
    | .ok s' => applyTransactions s' blockId rest

/-- The body of `processBlock`'s write transaction: insert the block row,
then every transaction. -/
def applyBlock (s : Store) (b : Block) : Except String Store :=
  match insertBlock s b.id b.height with
  | .error e => .error e
  | .ok s1 => applyTransactions s1 b.id b.transactions

/-- An error surfaced by `processBlock`: a validation failure, or a store
error that aborted the write transaction. -/
inductive PErr where
  | validation (e : VErr)
  | store (msg : String)
deriving DecidableEq, Repr

/-- `processBlock`: validate, then apply inside one transaction.  An error
return means the transaction rolled back, so the caller's committed state
is unchanged. -/
def processBlock (s : Store) (b : Block) : Except PErr Store :=
  match validateBlock s b with
  | .error e => .error (.validation e)
  | .ok _ =>
    match applyBlock s b with
    | .error m => .error (.store m)
    | .ok s' => .ok s'

/-! ## Rollback engine (`src/services/rollback.service.ts`) -/

/-- The body of the rollback's write transaction: delete the blocks above
the target, reset stale spent flags, and rebuild the balance cache. -/
def rollbackMutation (s : Store) (targetHeight : Int) : Store :=
  recalculateAllBalances (resetSpentOutputs (deleteBlocksAboveHeight s targetHeight))

/-- `rollbackToHeight`: reject negative targets; no-op when no blocks exist
or the target is at or above the current height; otherwise run the
mutation in one transaction. -/
def rollbackToHeight (s : Store) (targetHeight : Int) : Except String Store :=
  if targetHeight < 0 then .error "Target height must be non-negative"
  else
    match getCurrentHeight s with
    | none => .ok s
    | some h =>
      if targetHeight ≥ (h : Int) then .ok s
      else .ok (rollbackMutation s targetHeight)

/-! ## Committed histories -/

/-- A mutating engine operation: block submission or rollback. -/
inductive Op where
  | submit (b : Block)
  | rollback (target : Int)

/-- The committed state after one operation: an error leaves the state
unchanged (validation failures mutate nothing; store errors abort the
write transaction). -/
def applyOp (s : Store) : Op → Store
  | .submit b =>
    match processBlock s b with
    | .ok s' => s'
    | .error _ => s
  | .rollback t =>
    match rollbackToHeight s t with
    | .ok s' => s'
    | .error _ => s

/-- The committed state after a sequence of operations from the empty
store. -/
def run (ops : List Op) : Store := ops.foldl applyOp Store.empty

/-- Apply a sequence of blocks, failing on the first rejected one. -/
def applyChain (s : Store) : List Block → Except PErr Store
  | [] => .ok s
  | b :: rest =>
    match processBlock s b with
    | .error e => .error e
    | .ok s' => applyChain s' rest

/-- `Reach bs s`: the blocks `bs` are all accepted in order from the empty
store and lead to state `s`. -/
def Reach (bs : List Block) (s : Store) : Prop := applyChain Store.empty bs = .ok s

/-! ## Derived views and invariants used by the verification -/

/-- The constraint-relevant part of an output row (everything but the
`spent` flag). -/
def plainOf (o : OutputRow) : String × Nat × String × Int :=
  (o.txId, o.index, o.address, o.value)

/-- Does some input row reference the output key `(t, i)`?  (The
`NOT EXISTS` subquery of `resetSpentOutputs`.) -/
def refsKey (inputs : List InputRow) (t : String) (i : Nat) : Bool :=
  inputs.any (fun r => r.spentTxId == t && r.spentIndex == i)

/-- Propositional form of `refsKey`. -/
def Referenced (s : Store) (t : String) (i : Nat) : Prop :=
  ∃ r ∈ s.inputs, r.spentTxId = t ∧ r.spentIndex = i

/-- The input rows a transaction contributes. -/
def txInputRowsOf (t : Transaction) : List InputRow :=
  t.inputs.map (fun i => ⟨t.id, i.txId, i.index⟩)

/-- The output rows a transaction contributes, without spent flags. -/
def txOutputSpecsOf (t : Transaction) : List (String × Nat × String × Int) :=
  t.outputs.enum.map (fun p => (t.id, p.1, p.2.address, p.2.value))

/-- The transaction rows a block contributes. -/
def txRowsOf (b : Block) : List (String × String) :=
  b.transactions.map (fun t => (t.id, b.id))

/-- The input rows a block contributes. -/
def inputRowsOf (b : Block) : List InputRow :=
  b.transactions.flatMap txInputRowsOf

/-- The output rows a block contributes, without spent flags. -/
def outputSpecsOf (b : Block) : List (String × Nat × String × Int) :=
  b.transactions.flatMap txOutputSpecsOf

/-- The key of a flag-free output row. -/
def specKey (r : String × Nat × String × Int) : String × Nat := (r.1, r.2.1)

/-- Rebuild a stored output row from its flag-free part, with the spent
flag the UTXO-consistency invariant dictates. -/
def rowOfSpec (inputs : List InputRow) (r : String × Nat × String × Int) : OutputRow :=
  ⟨r.1, r.2.1, r.2.2.1, r.2.2.2, refsKey inputs r.1 r.2.1⟩

/-- State-level well-formedness: UTXO consistency (I3), key uniqueness,
referential closure, and balance agreement (I5). -/
structure SInv (s : Store) : Prop where
  spentIff : ∀ o ∈ s.outputs, o.spent = true ↔ Referenced s o.txId o.index
  txNodup : (s.txs.map (fun t => t.1)).Nodup
  outKeysNodup : (s.outputs.map (fun o => (o.txId, o.index))).Nodup
  outTx : ∀ o ∈ s.outputs, o.txId ∈ s.txs.map (fun t => t.1)
  refOut : ∀ r ∈ s.inputs, ∃ o ∈ s.outputs, o.txId = r.spentTxId ∧ o.index = r.spentIndex
  balView : ∀ a, getAddressBalance s a = calculateAddressBalance s a

/-- Exact characterization of the state reached by a successful chain of
block submissions: every relation is the concatenation of the per-block
contributions, heights are `1, …, k` in order, spent flags agree with the
surviving inputs, and each block's inputs reference outputs of strictly
earlier blocks. -/
structure ChainInv (bs : List Block) (s : Store) : Prop where
  blocks_eq : s.blocks = bs.map (fun b => (b.id, b.height))
  heights_eq : bs.map (fun b => b.height) = List.range' 1 bs.length
  blockIds_nodup : (bs.map (fun b => b.id)).Nodup
  txs_eq : s.txs = bs.flatMap txRowsOf
  inputs_eq : s.inputs = bs.flatMap inputRowsOf
  outputs_eq : s.outputs = (bs.flatMap outputSpecsOf).map (rowOfSpec s.inputs)
  refsBack : ∀ (j : Nat) (hj : j < bs.length), ∀ r ∈ inputRowsOf (bs.get ⟨j, hj⟩),
    (r.spentTxId, r.spentIndex) ∈ ((bs.take j).flatMap outputSpecsOf).map specKey
  sinv : SInv s

/-- Equality of the four ledger relations (blocks, transactions, outputs,
inputs). -/
def CoreEq (s t : Store) : Prop :=
  s.blocks = t.blocks ∧ s.txs = t.txs ∧ s.outputs = t.outputs ∧ s.inputs = t.inputs

/-- Equality of the balance view (absent rows read as 0). -/
def ViewEq (s t : Store) : Prop := ∀ a, getAddressBalance s a = getAddressBalance t a

/-- Two states that agree on the ledger relations and on the balance
view; such states are indistinguishable to every engine operation. -/
def Mirror (s t : Store) : Prop := CoreEq s t ∧ ViewEq s t

/-- A state is reachable when it mirrors the state of some accepted block
chain. -/
def Reachable (s : Store) : Prop := ∃ bs t, Reach bs t ∧ Mirror s t

/-- The comparison of P5: equality on the block set, the transaction set,
the output set with spent flags, and the balance view. -/
def StateAgrees (s t : Store) : Prop :=
  (∀ r, r ∈ s.blocks ↔ r ∈ t.blocks) ∧ (∀ r, r ∈ s.txs ↔ r ∈ t.txs) ∧
  (∀ o, o ∈ s.outputs ↔ o ∈ t.outputs) ∧ ViewEq s t

/-- The value of the output referenced by an input (0 when absent; the
validator only uses it when present). -/
def referencedValue (s : Store) (i : TxInput) : Int :=
  ((findOutput s i.txId i.index).map (fun o => o.value)).getD 0

/-- Lift `Mirror` to operation results: equal errors, or mirrored
states. -/
def MirrorE {ε : Type} : Except ε Store → Except ε Store → Prop
  | .error e, .error e' => e = e'
  | .ok a, .ok b => Mirror a b
  | _, _ => False

/-- List-level reading of `calculateAddressBalance`: sum of the values of
the unspent rows addressed to `a`. -/
def calcOn (l : List OutputRow) (a : String) : Int :=
  ((l.filter (fun o => o.address == a && o.spent == false)).map (fun o => o.value)).sum

/-- A store whose balance cache disagrees with its outputs: one unspent
output of value 10 for `addr`, but a cached row carrying 5. -/
def cexStore : Store :=
  { blocks := [], txs := [], outputs := [⟨"t", 0, "addr", 10, false⟩],
    inputs := [], balances := [("addr", 5)] }

/-- A store holding one already-spent output, for exercising the
validator's error branches on concrete data. -/
def c4Store : Store :=
  { blocks := [], txs := [], outputs := [⟨"spentT", 2, "a", 5, true⟩],
    inputs := [], balances := [] }

/-- A store holding one unspent output of value 10. -/
def c5Store : Store :=
  { blocks := [], txs := [], outputs := [⟨"t1", 0, "alice", 10, false⟩],
    inputs := [], balances := [] }

/-- A transaction spending `t1:0` (value 10) into outputs summing to 8. -/
def c5Tx : Transaction := ⟨"txx", [⟨"t1", 0⟩], [⟨"bob", 8⟩]⟩

/-- A store holding a single block at height 1. -/
def c9Store : Store :=
  { blocks := [("b1", 1)], txs := [], outputs := [], inputs := [], balances := [] }

/-- A block submitted at the wrong height (5 against an empty store). -/
def badBlock : Block := ⟨"x", 5, []⟩

/-! ## Primitive lemmas -/

theorem refsKey_iff {I : List InputRow} {t : String} {i : Nat} :
    refsKey I t i = true ↔ ∃ r ∈ I, r.spentTxId = t ∧ r.spentIndex = i := by
  simp [refsKey, List.any_eq_true]

theorem referenced_iff {s : Store} {t : String} {i : Nat} :
    Referenced s t i ↔ refsKey s.inputs t i = true := by
  rw [refsKey_iff]; rfl

theorem refsKey_append {I J : List InputRow} {t : String} {i : Nat} :
    refsKey (I ++ J) t i = (refsKey I t i || refsKey J t i) := by
  simp [refsKey]

theorem refsKey_mono {I J : List InputRow} {t : String} {i : Nat}
    (hsub : ∀ r ∈ I, r ∈ J) (h : refsKey I t i = true) : refsKey J t i = true := by
  rw [refsKey_iff] at h ⊢
  obtain ⟨r, hr, h1, h2⟩ := h
  exact ⟨r, hsub r hr, h1, h2⟩

theorem plainOf_rowOfSpec (I : List InputRow) (r : String × Nat × String × Int) :
    plainOf (rowOfSpec I r) = r := rfl

/-- Two output lists with the same flag-free rows, whose spent flags both
agree with the same input list, are equal. -/
theorem outputs_determined {I : List InputRow} :
    ∀ {l₁ l₂ : List OutputRow}, l₁.map plainOf = l₂.map plainOf →
    (∀ o ∈ l₁, o.spent = refsKey I o.txId o.index) →
    (∀ o ∈ l₂, o.spent = refsKey I o.txId o.index) → l₁ = l₂
  | [], [], _, _, _ => rfl
  | o₁ :: t₁, o₂ :: t₂, hp, h₁, h₂ => by
    simp only [List.map_cons, List.cons.injEq] at hp
    have hk : o₁.txId = o₂.txId ∧ o₁.index = o₂.index ∧ o₁.address = o₂.address ∧
        o₁.value = o₂.value := by
      have := hp.1
      simp [plainOf, Prod.ext_iff] at this
      exact this
    have hs : o₁.spent = o₂.spent := by
      rw [h₁ o₁ (by simp), h₂ o₂ (by simp), hk.1, hk.2.1]
    have : o₁ = o₂ := by
      cases o₁; cases o₂
      simp_all
    rw [this, outputs_determined hp.2 (fun o ho => h₁ o (by simp [ho]))
      (fun o ho => h₂ o (by simp [ho]))]

/-- Reading the upsert `updateAddressBalance`: the addressed row gains the
delta (created at the delta when absent), every other row is unchanged. -/
theorem getAddressBalance_update (s : Store) (a : String) (d : Int) (x : String) :
    getAddressBalance (updateAddressBalance s a d) x =
      getAddressBalance s x + (if x = a then d else 0) := by
  unfold updateAddressBalance getAddressBalance
  by_cases hA : s.balances.any (fun r => r.1 == a)
  · simp only [hA, if_true]
    have hmap : ∀ l : List (String × Int),
        (l.map (fun r => if r.1 == a then (r.1, r.2 + d) else r)).find?
            (fun r => r.1 == x) =
          (l.find? (fun r => r.1 == x)).map (fun r => if r.1 == a then (r.1, r.2 + d) else r) := by
      intro l
      induction l with
      | nil => rfl
      | cons r t ih =>
        have hkey : ((if (r.1 == a) = true then (r.1, r.2 + d) else r) : String × Int).1 = r.1 := by
          by_cases h : r.1 = a <;> simp [h]
        simp only [List.map_cons]
        by_cases hr : r.1 = x
        · rw [List.find?_cons_of_pos _ (by cases h2 : (r.1 == a) <;> simp [h2, hr]),
            List.find?_cons_of_pos _ (by simp [hr]), Option.map_some']
        · rw [List.find?_cons_of_neg _ (by cases h2 : (r.1 == a) <;> simp [h2, hr]),
            List.find?_cons_of_neg _ (by simp [hr]), ih]
    rw [hmap]
    rcases hF : s.balances.find? (fun r => r.1 == x) with _ | r
    · rw [hF]
      have hxa : x ≠ a := by
        intro hxa
        subst hxa
        rw [List.any_eq_true] at hA
        obtain ⟨r, hr, hra⟩ := hA
        rw [List.find?_eq_none] at hF
        exact absurd hra (hF r hr)
      simp [hxa]
    · rw [hF]
      have hrx : r.1 = x := by
        have := List.find?_some hF
        simpa using this
      by_cases hra : x = a
      · have h2 : (r.1 == a) = true := by simp [hrx, hra]
        simp [h2, hrx, hra]
      · have h2 : (r.1 == a) = false := by simp [hrx, hra]
        simp [h2, hrx, hra]
  · rw [if_neg hA]
    dsimp only
    rcases hF : s.balances.find? (fun r => r.1 == x) with _ | r
    · rw [List.find?_append, hF]
      by_cases hxa : x = a
      · subst hxa
        simp [List.find?_cons]
      · have h2 : (a == x) = false := by simp [Ne.symm hxa]
        simp [List.find?_cons, h2, hxa]
    · rw [List.find?_append, hF]
      have hrx : r.1 = x := by
        have := List.find?_some hF
        simpa using this
      have hxa : x ≠ a := by
        intro hxa
        rw [eq_comm, ← hrx] at hxa
        have hmem := List.mem_of_find?_eq_some hF
        have hcon : s.balances.any (fun r => r.1 == a) := by
          rw [List.any_eq_true]
          exact ⟨r, hmem, by simp [hxa]⟩
        exact absurd hcon hA
      simp [Option.or_some, hxa]

theorem calculateAddressBalance_eq (s : Store) (a : String) :
    calculateAddressBalance s a = calcOn s.outputs a := rfl

theorem calcOn_nil (a : String) : calcOn [] a = 0 := rfl

theorem calcOn_append (l₁ l₂ : List OutputRow) (a : String) :
    calcOn (l₁ ++ l₂) a = calcOn l₁ a + calcOn l₂ a := by
  simp [calcOn, List.filter_append]

theorem calcOn_cons (o : OutputRow) (l : List OutputRow) (a : String) :
    calcOn (o :: l) a =
      (if o.address = a ∧ o.spent = false then o.value else 0) + calcOn l a := by
  by_cases h : o.address = a ∧ o.spent = false
  · have hb : (o.address == a && o.spent == false) = true := by
      simp [h.1, h.2]
    simp [calcOn, List.filter_cons, hb, h]
  · have hb : (o.address == a && o.spent == false) = false := by
      rcases Bool.eq_false_or_eq_true o.spent with hs | hs <;> simp_all
    simp [calcOn, List.filter_cons, hb, h]

theorem findOutput_decomp {s : Store} {t : String} {i : Nat} {o : OutputRow}
    (h : findOutput s t i = some o) :
    o.txId = t ∧ o.index = i ∧ ∃ L₁ L₂, s.outputs = L₁ ++ o :: L₂ ∧
      ∀ r ∈ L₁, ¬(r.txId = t ∧ r.index = i) := by
  unfold findOutput at h
  rw [List.find?_eq_some] at h
  obtain ⟨hp, L₁, L₂, hdec, hL₁⟩ := h
  have hkey : o.txId = t ∧ o.index = i := by simpa using hp
  refine ⟨hkey.1, hkey.2, L₁, L₂, hdec, fun r hr hcon => ?_⟩
  have := hL₁ r hr
  simp [hcon.1, hcon.2] at this

theorem findOutput_mem {s : Store} {t : String} {i : Nat} {o : OutputRow}
    (h : findOutput s t i = some o) : o ∈ s.outputs :=
  List.mem_of_find?_eq_some h

theorem findOutput_isSome_of_mem {s : Store} {r : OutputRow} (h : r ∈ s.outputs) :
    ∃ o, findOutput s r.txId r.index = some o := by
  unfold findOutput
  rcases hf : s.outputs.find? (fun o => o.txId == r.txId && o.index == r.index) with _ | o
  · rw [List.find?_eq_none] at hf
    exact absurd (by simp) (hf r h)
  · exact ⟨o, hf⟩

/-- With key-unique outputs, any row carrying the looked-up key is the
found row. -/
theorem findOutput_unique {s : Store} {t : String} {i : Nat} {o : OutputRow}
    (hnd : (s.outputs.map (fun o => (o.txId, o.index))).Nodup)
    (hf : findOutput s t i = some o) :
    ∀ r ∈ s.outputs, r.txId = t → r.index = i → r = o := by
  intro r hr hrt hri
  obtain ⟨hot, hoi, L₁, L₂, hdec, hL₁⟩ := findOutput_decomp hf
  rw [hdec] at hr hnd
  rw [List.map_append, List.map_cons, List.nodup_append] at hnd
  rcases List.mem_append.mp hr with h₁ | h₂
  · exact absurd ⟨hrt, hri⟩ (hL₁ r h₁)
  · rcases List.mem_cons.mp h₂ with h | h
    · exact h
    · exfalso
      have hmem : (o.txId, o.index) ∈ L₂.map (fun o => (o.txId, o.index)) := by
        rw [List.mem_map]
        exact ⟨r, h, by simp [hrt, hri, hot, hoi]⟩
      have := hnd.2.1
      rw [List.nodup_cons] at this
      exact this.1 hmem

theorem mark_blocks (s : Store) (t : String) (i : Nat) :
    (markOutputAsSpent s t i).blocks = s.blocks := rfl

theorem mark_txs (s : Store) (t : String) (i : Nat) :
    (markOutputAsSpent s t i).txs = s.txs := rfl

theorem mark_inputs (s : Store) (t : String) (i : Nat) :
    (markOutputAsSpent s t i).inputs = s.inputs := rfl

theorem mark_balances (s : Store) (t : String) (i : Nat) :
    (markOutputAsSpent s t i).balances = s.balances := rfl

theorem mark_plain (s : Store) (t : String) (i : Nat) :
    (markOutputAsSpent s t i).outputs.map plainOf = s.outputs.map plainOf := by
  show (s.outputs.map _).map plainOf = _
  rw [List.map_map]
  apply List.map_congr_left
  intro o _
  by_cases h : o.txId = t ∧ o.index = i <;> simp [plainOf, h]

/-- Marking the key of the unique row `o` rewrites exactly that row. -/
theorem mark_decomp {s : Store} {t : String} {i : Nat} {o : OutputRow} {L₁ L₂ : List OutputRow}
    (hdec : s.outputs = L₁ ++ o :: L₂)
    (hL₁ : ∀ r ∈ L₁, ¬(r.txId = t ∧ r.index = i))
    (hL₂ : ∀ r ∈ L₂, ¬(r.txId = t ∧ r.index = i))
    (hot : o.txId = t) (hoi : o.index = i) :
    (markOutputAsSpent s t i).outputs = L₁ ++ { o with spent := true } :: L₂ := by
  show s.outputs.map _ = _
  rw [hdec, List.map_append, List.map_cons]
  have hid : ∀ (L : List OutputRow), (∀ r ∈ L, ¬(r.txId = t ∧ r.index = i)) →
      L.map (fun r => if (r.txId == t && r.index == i) = true then
        { r with spent := true } else r) = L := by
    intro L hL
    have hcg : L.map (fun r => if (r.txId == t && r.index == i) = true then
        { r with spent := true } else r) = L.map id := by
      apply List.map_congr_left
      intro r hr
      have hfalse : (r.txId == t && r.index == i) = false := by
        rcases Decidable.em (r.txId = t) with h1 | h1
        · rcases Decidable.em (r.index = i) with h2 | h2
          · exact absurd ⟨h1, h2⟩ (hL r hr)
          · simp [h2]
        · simp [h1]
      simp [hfalse]
    rw [hcg, List.map_id]
  rw [hid L₁ hL₁, hid L₂ hL₂]
  have hkey : (o.txId == t && o.index == i) = true := by simp [hot, hoi]
  simp [hkey]

theorem keys_of_plain {l₁ l₂ : List OutputRow}
    (h : l₁.map plainOf = l₂.map plainOf) :
    l₁.map (fun o => (o.txId, o.index)) = l₂.map (fun o => (o.txId, o.index)) := by
  have h₁ : ∀ l : List OutputRow, l.map (fun o => (o.txId, o.index)) =
      (l.map plainOf).map (fun p => (p.1, p.2.1)) := by
    intro l
    rw [List.map_map]
    rfl
  rw [h₁, h₁, h]

/-- The key split out of a key-unique output list occurs nowhere else. -/
theorem nodup_key_not_right {L₁ L₂ : List OutputRow} {o : OutputRow}
    (hnd : ((L₁ ++ o :: L₂).map (fun r => (r.txId, r.index))).Nodup) :
    ∀ r ∈ L₂, ¬(r.txId = o.txId ∧ r.index = o.index) := by
  intro r hr hcon
  rw [List.map_append, List.map_cons, List.nodup_append] at hnd
  have hmem : (o.txId, o.index) ∈ L₂.map (fun r => (r.txId, r.index)) :=
    List.mem_map.mpr ⟨r, hr, by simp [hcon.1, hcon.2]⟩
  have := hnd.2.1
  rw [List.nodup_cons] at this
  exact this.1 hmem

/-- Marking the unique unspent row `o` removes exactly its contribution
from every address's computed balance. -/
theorem calc_mark {s : Store} {t : String} {i : Nat} {o : OutputRow}
    (hnd : (s.outputs.map (fun r => (r.txId, r.index))).Nodup)
    (hf : findOutput s t i = some o) (hsp : o.spent = false) (a : String) :
    calcOn (markOutputAsSpent s t i).outputs a =
      calcOn s.outputs a - (if o.address = a then o.value else 0) := by
  obtain ⟨hot, hoi, L₁, L₂, hdec, hL₁⟩ := findOutput_decomp hf
  have hL₂ : ∀ r ∈ L₂, ¬(r.txId = t ∧ r.index = i) := by
    intro r hr hcon
    rw [hdec] at hnd
    exact nodup_key_not_right hnd r hr (by rw [hot, hoi]; exact hcon)
  rw [mark_decomp hdec hL₁ hL₂ hot hoi, hdec, calcOn_append, calcOn_append,
    calcOn_cons, calcOn_cons]
  by_cases ha : o.address = a
  · simp [ha, hsp]
    ring
  · simp [ha]

theorem update_blocks (s : Store) (a : String) (d : Int) :
    (updateAddressBalance s a d).blocks = s.blocks := by
  unfold updateAddressBalance
  split <;> rfl

theorem update_txs (s : Store) (a : String) (d : Int) :
    (updateAddressBalance s a d).txs = s.txs := by
  unfold updateAddressBalance
  split <;> rfl

theorem update_outputs (s : Store) (a : String) (d : Int) :
    (updateAddressBalance s a d).outputs = s.outputs := by
  unfold updateAddressBalance
  split <;> rfl

theorem update_inputs (s : Store) (a : String) (d : Int) :
    (updateAddressBalance s a d).inputs = s.inputs := by
  unfold updateAddressBalance
  split <;> rfl

theorem insertInput_ok {s s' : Store} {a b : String} {c : Nat}
    (h : insertInput s a b c = .ok s') :
    s' = { s with inputs := s.inputs ++ [⟨a, b, c⟩] } ∧
      (∃ t ∈ s.txs, t.1 = a) ∧ (∃ o ∈ s.outputs, o.txId = b ∧ o.index = c) := by
  unfold insertInput at h
  split at h
  · cases h
  · rename_i h1
    split at h
    · cases h
    · rename_i h2
      refine ⟨(Except.ok.inj h).symm, ?_, ?_⟩
      · simpa using h1
      · simpa using h2

theorem insertTransaction_ok {s s' : Store} {a b : String}
    (h : insertTransaction s a b = .ok s') :
    s' = { s with txs := s.txs ++ [(a, b)] } ∧
      (∀ t ∈ s.txs, t.1 ≠ a) ∧ (∃ r ∈ s.blocks, r.1 = b) := by
  unfold insertTransaction at h
  split at h
  · cases h
  · rename_i h1
    split at h
    · cases h
    · rename_i h2
      refine ⟨(Except.ok.inj h).symm, ?_, ?_⟩
      · intro t ht hta
        exact h1 (List.any_eq_true.mpr ⟨t, ht, by simp [hta]⟩)
      · simpa using h2

theorem insertBlock_ok {s s' : Store} {a : String} {n : Nat}
    (h : insertBlock s a n = .ok s') :
    s' = { s with blocks := s.blocks ++ [(a, n)] } ∧
      (∀ r ∈ s.blocks, r.1 ≠ a ∧ r.2 ≠ n) := by
  unfold insertBlock at h
  split at h
  · cases h
  · rename_i h1
    refine ⟨(Except.ok.inj h).symm, ?_⟩
    simpa using h1

theorem insertOutput_ok {s s' : Store} {a : String} {i : Nat} {addr : String} {v : Int}
    (hnoconf : ∀ o ∈ s.outputs, ¬(o.txId = a ∧ o.index = i))
    (h : insertOutput s a i addr v = .ok s') :
    s' = { s with outputs := s.outputs ++ [⟨a, i, addr, v, false⟩] } ∧
      (∃ t ∈ s.txs, t.1 = a) := by
  unfold insertOutput at h
  rw [if_neg (by simpa using fun o ho h1 h2 => hnoconf o ho ⟨h1, h2⟩)] at h
  split at h
  · cases h
  · rename_i h2
    refine ⟨(Except.ok.inj h).symm, ?_⟩
    simpa using h2

/-- Congruence: `SInv` does not look at the blocks relation. -/
theorem SInv_congr {s s' : Store} (htx : s'.txs = s.txs) (hout : s'.outputs = s.outputs)
    (hin : s'.inputs = s.inputs) (hbal : s'.balances = s.balances) (h : SInv s) : SInv s' := by
  constructor
  · intro o ho
    rw [hout] at ho
    unfold Referenced
    rw [hin]
    exact h.spentIff o ho
  · rw [htx]; exact h.txNodup
  · rw [hout]; exact h.outKeysNodup
  · intro o ho
    rw [hout] at ho
    rw [htx]
    exact h.outTx o ho
  · intro r hr
    rw [hin] at hr
    rw [hout]
    exact h.refOut r hr
  · intro a
    unfold getAddressBalance calculateAddressBalance
    rw [hbal, hout]
    exact h.balView a

theorem getCurrentHeight_of_heights {s : Store} {n : Nat}
    (hb : s.blocks.map (fun b => b.2) = List.range' 1 n) :
    getCurrentHeight s = if n = 0 then none else some n := by
  unfold getCurrentHeight
  rw [hb]
  rcases n with _ | m
  · rfl
  · rw [if_neg (Nat.succ_ne_zero m), List.max?_eq_some_iff']
    constructor
    · rw [List.mem_range'_1]
      omega
    · intro b hb'
      rw [List.mem_range'_1] at hb'
      omega

theorem expectedHeight_of_heights {s : Store} {n : Nat}
    (hb : s.blocks.map (fun b => b.2) = List.range' 1 n) :
    expectedHeight s = n + 1 := by
  unfold expectedHeight
  rw [getCurrentHeight_of_heights hb]
  rcases n with _ | m <;> simp

theorem getOutputValue_ok_some {s : Store} {t : String} {i : Nat} {v : Int}
    (h : getOutputValue s t i = .ok (some v)) :
    ∃ o, findOutput s t i = some o ∧ o.spent = false ∧ o.value = v := by
  unfold getOutputValue at h
  split at h
  · cases h
  · rename_i o ho
    split at h
    · cases h
    · rename_i hsp
      exact ⟨o, ho, Bool.not_eq_true _ ▸ hsp, Option.some.inj (Except.ok.inj h)⟩

theorem getOutputValue_spent {s : Store} {t : String} {i : Nat} {o : OutputRow}
    (hf : findOutput s t i = some o) (hsp : o.spent = true) :
    getOutputValue s t i = .error ("Output " ++ t ++ ":" ++ toString i ++
      " has already been spent") := by
  unfold getOutputValue
  rw [hf]
  simp [hsp]

theorem getOutputValue_none {s : Store} {t : String} {i : Nat}
    (hf : findOutput s t i = none) : getOutputValue s t i = .ok none := by
  unfold getOutputValue
  rw [hf]

/-- Success characterization of `applyInput`: the referenced output exists
and is unspent; the new state marks it, appends the input row, and debits
the output's address; well-formedness is preserved. -/
theorem applyInput_spec {s s' : Store} {tid : String} {inp : TxInput}
    (hS : SInv s) (h : applyInput s tid inp = .ok s') :
    ∃ o, findOutput s inp.txId inp.index = some o ∧ o.spent = false ∧
      s'.blocks = s.blocks ∧ s'.txs = s.txs ∧
      s'.outputs.map plainOf = s.outputs.map plainOf ∧
      s'.inputs = s.inputs ++ [⟨tid, inp.txId, inp.index⟩] ∧
      (∀ x, getAddressBalance s' x =
        getAddressBalance s x + (if x = o.address then -o.value else 0)) ∧
      SInv s' := by
  unfold applyInput at h
  split at h
  · cases h
  · cases h
  · rename_i v hv
    split at h
    · cases h
    · rename_i addr haddr
      split at h
      · cases h
      · rename_i haddrne
        split at h
        · cases h
        · rename_i s₁ hins
          obtain ⟨o, hfo, hosp, hov⟩ := getOutputValue_ok_some hv
          have haddro : addr = o.address := by
            unfold getOutputAddress at haddr
            rw [hfo] at haddr
            exact (Option.some.inj haddr).symm
          obtain ⟨hs₁, _, _⟩ := insertInput_ok hins
          have hs' : s' = updateAddressBalance s₁ addr (-v) := (Except.ok.inj h).symm
          obtain ⟨hot, hoi, L₁, L₂, hdec, hL₁⟩ := findOutput_decomp hfo
          have hL₂ : ∀ r ∈ L₂, ¬(r.txId = inp.txId ∧ r.index = inp.index) := by
            intro r hr hcon
            have hnd := hS.outKeysNodup
            rw [hdec] at hnd
            exact nodup_key_not_right hnd r hr (by rw [hot, hoi]; exact hcon)
          have hmark : (markOutputAsSpent s inp.txId inp.index).outputs =
              L₁ ++ { o with spent := true } :: L₂ := mark_decomp hdec hL₁ hL₂ hot hoi
          have hout' : s'.outputs = L₁ ++ { o with spent := true } :: L₂ := by
            rw [hs', update_outputs, hs₁]
            exact hmark
          have hin' : s'.inputs = s.inputs ++ [⟨tid, inp.txId, inp.index⟩] := by
            rw [hs', update_inputs, hs₁]
            rfl
          have hblocks' : s'.blocks = s.blocks := by
            rw [hs', update_blocks, hs₁]
            rfl
          have htxs' : s'.txs = s.txs := by
            rw [hs', update_txs, hs₁]
            rfl
          have hplain : s'.outputs.map plainOf = s.outputs.map plainOf := by
            have := mark_plain s inp.txId inp.index
            rw [hmark] at this
            rw [hout', this]
          have hbal' : ∀ x, getAddressBalance s' x =
              getAddressBalance s x + (if x = o.address then -o.value else 0) := by
            intro x
            rw [hs', getAddressBalance_update]
            have : getAddressBalance s₁ x = getAddressBalance s x := by
              unfold getAddressBalance
              rw [hs₁]
              rfl
            rw [this, haddro, hov]
          -- membership in the new output list comes from the old one
          have hmemold : ∀ r, r ∈ L₁ ∨ r ∈ L₂ → r ∈ s.outputs := by
            intro r hr
            rw [hdec]
            rcases hr with h1 | h2
            · exact List.mem_append.mpr (Or.inl h1)
            · exact List.mem_append.mpr (Or.inr (List.mem_cons.mpr (Or.inr h2)))
          have hrefs' : ∀ t' i', Referenced s' t' i' ↔
              Referenced s t' i' ∨ (inp.txId = t' ∧ inp.index = i') := by
            intro t' i'
            unfold Referenced
            rw [hin']
            constructor
            · rintro ⟨r, hr, h1, h2⟩
              rcases List.mem_append.mp hr with hr | hr
              · exact Or.inl ⟨r, hr, h1, h2⟩
              · rcases List.mem_cons.mp hr with hr | hr
                · subst hr
                  exact Or.inr ⟨h1, h2⟩
                · cases hr
            · rintro (⟨r, hr, h1, h2⟩ | ⟨h1, h2⟩)
              · exact ⟨r, List.mem_append.mpr (Or.inl hr), h1, h2⟩
              · exact ⟨⟨tid, inp.txId, inp.index⟩,
                  List.mem_append.mpr (Or.inr (List.mem_cons.mpr (Or.inl rfl))), h1, h2⟩
          refine ⟨o, hfo, hosp, hblocks', htxs', hplain, hin', hbal', ?_⟩
          constructor
          · -- spentIff
            intro o' ho'
            rw [hout'] at ho'
            rw [hrefs' o'.txId o'.index]
            rcases List.mem_append.mp ho' with h1 | h2
            · have hne := hL₁ o' h1
              have homem := hmemold o' (Or.inl h1)
              rw [hS.spentIff o' homem]
              constructor
              · exact fun hr => Or.inl hr
              · rintro (hr | ⟨h1', h2'⟩)
                · exact hr
                · exact absurd ⟨h1'.symm, h2'.symm⟩ hne
            · rcases List.mem_cons.mp h2 with h1 | h1
              · subst h1
                exact ⟨fun _ => Or.inr ⟨hot.symm, hoi.symm⟩, fun _ => rfl⟩
              · have hne := hL₂ o' h1
                have homem := hmemold o' (Or.inr h1)
                rw [hS.spentIff o' homem]
                constructor
                · exact fun hr => Or.inl hr
                · rintro (hr | ⟨h1', h2'⟩)
                  · exact hr
                  · exact absurd ⟨h1'.symm, h2'.symm⟩ hne
          · rw [htxs']
            exact hS.txNodup
          · have := keys_of_plain hplain
            rw [this]
            exact hS.outKeysNodup
          · intro o' ho'
            rw [htxs']
            rw [hout'] at ho'
            rcases List.mem_append.mp ho' with h1 | h2
            · exact hS.outTx o' (hmemold o' (Or.inl h1))
            · rcases List.mem_cons.mp h2 with h1 | h1
              · subst h1
                have : o ∈ s.outputs := findOutput_mem hfo
                exact hS.outTx o this
              · exact hS.outTx o' (hmemold o' (Or.inr h1))
          · intro r hr
            rw [hin'] at hr
            rw [hout']
            rcases List.mem_append.mp hr with hr | hr
            · obtain ⟨o'', ho'', h1, h2⟩ := hS.refOut r hr
              rw [hdec] at ho''
              rcases List.mem_append.mp ho'' with hm | hm
              · exact ⟨o'', List.mem_append.mpr (Or.inl hm), h1, h2⟩
              · rcases List.mem_cons.mp hm with hm | hm
                · subst hm
                  exact ⟨{ o'' with spent := true },
                    List.mem_append.mpr (Or.inr (List.mem_cons.mpr (Or.inl rfl))), h1, h2⟩
                · exact ⟨o'', List.mem_append.mpr (Or.inr (List.mem_cons.mpr (Or.inr hm))),
                    h1, h2⟩
            · rcases List.mem_cons.mp hr with hr | hr
              · subst hr
                exact ⟨{ o with spent := true },
                  List.mem_append.mpr (Or.inr (List.mem_cons.mpr (Or.inl rfl))),
                  by simp [hot], by simp [hoi]⟩
              · cases hr
          · intro a
            rw [hbal' a, calculateAddressBalance_eq]
            have hcm := calc_mark hS.outKeysNodup hfo hosp a
            rw [hmark] at hcm
            rw [hout', hcm, ← calculateAddressBalance_eq, hS.balView a]
            by_cases hax : a = o.address
            · rw [if_pos hax, if_pos (hax ▸ rfl : o.address = a)]
              ring
            · rw [if_neg hax, if_neg (fun hc => hax hc.symm)]
              ring

/-- Applying a transaction's inputs preserves well-formedness, appends
exactly the input rows, and keeps the flag-free outputs. -/
theorem applyInputs_spec {tid : String} : ∀ {inputs : List TxInput} {s s' : Store},
    SInv s → applyInputs s tid inputs = .ok s' →
    SInv s' ∧ s'.blocks = s.blocks ∧ s'.txs = s.txs ∧
    s'.outputs.map plainOf = s.outputs.map plainOf ∧
    s'.inputs = s.inputs ++ inputs.map (fun i => ⟨tid, i.txId, i.index⟩) := by
  intro inputs
  induction inputs with
  | nil =>
    intro s s' hS h
    unfold applyInputs at h
    obtain rfl := Except.ok.inj h
    simp [hS]
  | cons inp rest ih =>
    intro s s' hS h
    unfold applyInputs at h
    split at h
    · cases h
    · rename_i s₁ h₁
      obtain ⟨o, _, _, hb₁, ht₁, hp₁, hi₁, _, hS₁⟩ := applyInput_spec hS h₁
      obtain ⟨hS', hb₂, ht₂, hp₂, hi₂⟩ := ih hS₁ h
      refine ⟨hS', hb₂.trans hb₁, ht₂.trans ht₁, hp₂.trans hp₁, ?_⟩
      rw [hi₂, hi₁, List.append_assoc]
      rfl

/-- Applying a transaction's outputs from a fresh index bound: appends
exactly the enumerated unspent rows and preserves well-formedness. -/
theorem applyOutputs_spec {tid : String} : ∀ {outs : List TxOutput} {i : Nat} {s s' : Store},
    SInv s → (∃ t ∈ s.txs, t.1 = tid) →
    (∀ o ∈ s.outputs, o.txId = tid → o.index < i) →
    (∀ r ∈ s.inputs, r.spentTxId ≠ tid) →
    applyOutputs s tid i outs = .ok s' →
    SInv s' ∧ s'.blocks = s.blocks ∧ s'.txs = s.txs ∧ s'.inputs = s.inputs ∧
    s'.outputs = s.outputs ++ (List.enumFrom i outs).map
      (fun p => ⟨tid, p.1, p.2.address, p.2.value, false⟩) := by
  intro outs
  induction outs with
  | nil =>
    intro i s s' hS _ _ _ h
    unfold applyOutputs at h
    obtain rfl := Except.ok.inj h
    simp [hS]
  | cons o rest ih =>
    intro i s s' hS htid hbound hnoref h
    unfold applyOutputs at h
    split at h
    · cases h
    · rename_i s₁ h₁
      have hnoconf : ∀ r ∈ s.outputs, ¬(r.txId = tid ∧ r.index = i) := by
        intro r hr hcon
        have := hbound r hr hcon.1
        omega
      obtain ⟨hs₁, _⟩ := insertOutput_ok hnoconf h₁
      have hs₁o : s₁.outputs = s.outputs ++ [⟨tid, i, o.address, o.value, false⟩] := by
        rw [hs₁]
      have hs₁t : s₁.txs = s.txs := by rw [hs₁]
      have hs₁b : s₁.blocks = s.blocks := by rw [hs₁]
      have hs₁i : s₁.inputs = s.inputs := by rw [hs₁]
      have hs₁bal : s₁.balances = s.balances := by rw [hs₁]
      have hS₂ : SInv (updateAddressBalance s₁ o.address o.value) := by
        constructor
        · intro o' ho'
          rw [update_outputs, hs₁o] at ho'
          have hrefs : ∀ t' i',
              Referenced (updateAddressBalance s₁ o.address o.value) t' i' ↔
                Referenced s t' i' := by
            intro t' i'
            unfold Referenced
            rw [update_inputs, hs₁i]
          rw [hrefs]
          rcases List.mem_append.mp ho' with h1 | h2
          · exact hS.spentIff o' h1
          · rcases List.mem_cons.mp h2 with h1 | h1
            · subst h1
              constructor
              · intro hfalse
                exact absurd hfalse (by simp)
              · rintro ⟨r, hr, h1', h2'⟩
                exact absurd (show r.spentTxId = tid from h1') (hnoref r hr)
            · cases h1
        · rw [update_txs, hs₁t]
          exact hS.txNodup
        · rw [update_outputs, hs₁o, List.map_append, List.nodup_append]
          refine ⟨hS.outKeysNodup, by simp, ?_⟩
          intro k hk
          rw [List.mem_map] at hk
          obtain ⟨r, hr, hkr⟩ := hk
          simp only [List.map_cons, List.map_nil, List.mem_singleton]
          intro hkey
          rw [← hkr] at hkey
          have h1 : r.txId = tid := congrArg Prod.fst hkey
          have h2 : r.index = i := congrArg Prod.snd hkey
          have := hbound r hr h1
          omega
        · intro o' ho'
          rw [update_outputs, hs₁o] at ho'
          rw [update_txs, hs₁t]
          rcases List.mem_append.mp ho' with h1 | h2
          · exact hS.outTx o' h1
          · rcases List.mem_cons.mp h2 with h1 | h1
            · subst h1
              obtain ⟨t, ht, hta⟩ := htid
              rw [List.mem_map]
              exact ⟨t, ht, hta⟩
            · cases h1
        · intro r hr
          rw [update_inputs, hs₁i] at hr
          rw [update_outputs, hs₁o]
          obtain ⟨o'', ho'', h1, h2⟩ := hS.refOut r hr
          exact ⟨o'', List.mem_append.mpr (Or.inl ho''), h1, h2⟩
        · intro a
          rw [getAddressBalance_update]
          have hba : getAddressBalance s₁ a = getAddressBalance s a := by
            unfold getAddressBalance
            rw [hs₁bal]
          rw [hba, calculateAddressBalance_eq, update_outputs, hs₁o, calcOn_append,
            calcOn_cons, calcOn_nil, ← calculateAddressBalance_eq, ← hS.balView a]
          dsimp only
          by_cases hax : a = o.address
          · rw [if_pos hax, if_pos (by exact ⟨hax.symm, rfl⟩)]
            omega
          · rw [if_neg hax, if_neg (by exact fun hc => hax hc.1.symm)]
            omega
      have htid₂ : ∃ t ∈ (updateAddressBalance s₁ o.address o.value).txs, t.1 = tid := by
        rw [update_txs, hs₁t]
        exact htid
      have hbound₂ : ∀ o' ∈ (updateAddressBalance s₁ o.address o.value).outputs,
          o'.txId = tid → o'.index < i + 1 := by
        intro o' ho' hot
        rw [update_outputs, hs₁o] at ho'
        rcases List.mem_append.mp ho' with h1 | h2
        · have := hbound o' h1 hot
          omega
        · rcases List.mem_cons.mp h2 with h1 | h1
          · subst h1
            show i < i + 1
            omega
          · cases h1
      have hnoref₂ : ∀ r ∈ (updateAddressBalance s₁ o.address o.value).inputs,
          r.spentTxId ≠ tid := by
        intro r hr
        rw [update_inputs, hs₁i] at hr
        exact hnoref r hr
      obtain ⟨hS', hb', ht', hi', ho'⟩ := ih hS₂ htid₂ hbound₂ hnoref₂ h
      refine ⟨hS', ?_, ?_, ?_, ?_⟩
      · rw [hb', update_blocks, hs₁b]
      · rw [ht', update_txs, hs₁t]
      · rw [hi', update_inputs, hs₁i]
      · rw [ho', update_outputs, hs₁o, List.append_assoc]
        rfl

theorem txIds_of_plain {l₁ l₂ : List OutputRow}
    (h : l₁.map plainOf = l₂.map plainOf) :
    l₁.map (fun o => o.txId) = l₂.map (fun o => o.txId) := by
  have h₁ : ∀ l : List OutputRow, l.map (fun o => o.txId) =
      (l.map plainOf).map (fun p => p.1) := by
    intro l
    rw [List.map_map]
    rfl
  rw [h₁, h₁, h]

/-- Success characterization of one `processBlockTransaction` call: the
transaction id is fresh, and the state gains exactly the transaction row,
its input rows, and its (unspent) output rows. -/
theorem processBlockTransaction_spec {s s' : Store} {t : Transaction} {bid : String}
    (hS : SInv s) (h : processBlockTransaction s t bid = .ok s') :
    SInv s' ∧ s'.blocks = s.blocks ∧
    s'.txs = s.txs ++ [(t.id, bid)] ∧
    s'.inputs = s.inputs ++ txInputRowsOf t ∧
    s'.outputs.map plainOf = s.outputs.map plainOf ++ txOutputSpecsOf t ∧
    (∀ u ∈ s.txs, u.1 ≠ t.id) := by
  unfold processBlockTransaction at h
  split at h
  · cases h
  · rename_i s₁ h₁
    split at h
    · cases h
    · rename_i s₂ h₂
      obtain ⟨hs₁, hfresh, _⟩ := insertTransaction_ok h₁
      have hs₁b : s₁.blocks = s.blocks := by rw [hs₁]
      have hs₁t : s₁.txs = s.txs ++ [(t.id, bid)] := by rw [hs₁]
      have hs₁o : s₁.outputs = s.outputs := by rw [hs₁]
      have hs₁i : s₁.inputs = s.inputs := by rw [hs₁]
      have hs₁bal : s₁.balances = s.balances := by rw [hs₁]
      have hS₁ : SInv s₁ := by
        constructor
        · intro o ho
          rw [hs₁o] at ho
          have : ∀ t' i', Referenced s₁ t' i' ↔ Referenced s t' i' := by
            intro t' i'
            unfold Referenced
            rw [hs₁i]
          rw [this]
          exact hS.spentIff o ho
        · rw [hs₁t, List.map_append, List.nodup_append]
          refine ⟨hS.txNodup, by simp, ?_⟩
          intro x hx
          simp only [List.map_cons, List.map_nil, List.mem_singleton]
          intro hxe
          rw [List.mem_map] at hx
          obtain ⟨u, hu, hux⟩ := hx
          exact hfresh u hu (by rw [hux, hxe])
        · rw [hs₁o]
          exact hS.outKeysNodup
        · intro o ho
          rw [hs₁o] at ho
          rw [hs₁t, List.map_append]
          exact List.mem_append.mpr (Or.inl (hS.outTx o ho))
        · intro r hr
          rw [hs₁i] at hr
          rw [hs₁o]
          exact hS.refOut r hr
        · intro a
          unfold getAddressBalance calculateAddressBalance
          rw [hs₁bal, hs₁o]
          exact hS.balView a
      obtain ⟨hS₂, hb₂, ht₂, hp₂, hi₂⟩ := applyInputs_spec hS₁ h₂
      have hnotin : ∀ o ∈ s₂.outputs, o.txId ≠ t.id := by
        intro o ho hoid
        have htxeq := txIds_of_plain hp₂
        have : o.txId ∈ s₂.outputs.map (fun o => o.txId) :=
          List.mem_map.mpr ⟨o, ho, rfl⟩
        rw [htxeq, hs₁o] at this
        rw [List.mem_map] at this
        obtain ⟨r, hr, hrid⟩ := this
        have := hS.outTx r hr
        rw [List.mem_map] at this
        obtain ⟨u, hu, huid⟩ := this
        exact hfresh u hu (by rw [huid, hrid, hoid])
      have htid : ∃ u ∈ s₂.txs, u.1 = t.id := by
        rw [ht₂, hs₁t]
        exact ⟨(t.id, bid), List.mem_append.mpr (Or.inr (List.mem_cons.mpr (Or.inl rfl))), rfl⟩
      have hbound : ∀ o ∈ s₂.outputs, o.txId = t.id → o.index < 0 := by
        intro o ho hoid
        exact absurd hoid (hnotin o ho)
      have hnoref : ∀ r ∈ s₂.inputs, r.spentTxId ≠ t.id := by
        intro r hr hrid
        obtain ⟨o, ho, h1, _⟩ := hS₂.refOut r hr
        exact hnotin o ho (by rw [h1, hrid])
      obtain ⟨hS', hb', ht', hi', ho'⟩ := applyOutputs_spec hS₂ htid hbound hnoref h
      refine ⟨hS', ?_, ?_, ?_, ?_, fun u hu => hfresh u hu⟩
      · rw [hb', hb₂, hs₁b]
      · rw [ht', ht₂, hs₁t]
      · rw [hi', hi₂, hs₁i]
        rfl
      · rw [ho', List.map_append, hp₂, hs₁o]
        congr 1
        unfold txOutputSpecsOf
        rw [List.map_map]
        rfl

/-- Success characterization of a block's transaction loop. -/
theorem applyTransactions_spec {bid : String} : ∀ {ts : List Transaction} {s s' : Store},
    SInv s → applyTransactions s bid ts = .ok s' →
    SInv s' ∧ s'.blocks = s.blocks ∧
    s'.txs = s.txs ++ ts.map (fun t => (t.id, bid)) ∧
    s'.inputs = s.inputs ++ ts.flatMap txInputRowsOf ∧
    s'.outputs.map plainOf = s.outputs.map plainOf ++ ts.flatMap txOutputSpecsOf := by
  intro ts
  induction ts with
  | nil =>
    intro s s' hS h
    unfold applyTransactions at h
    obtain rfl := Except.ok.inj h
    simp [hS]
  | cons t rest ih =>
    intro s s' hS h
    unfold applyTransactions at h
    split at h
    · cases h
    · rename_i s₁ h₁
      obtain ⟨hS₁, hb₁, ht₁, hi₁, hp₁, _⟩ := processBlockTransaction_spec hS h₁
      obtain ⟨hS', hb', ht', hi', hp'⟩ := ih hS₁ h
      refine ⟨hS', hb'.trans hb₁, ?_, ?_, ?_⟩
      · rw [ht', ht₁, List.append_assoc]
        rfl
      · rw [hi', hi₁, List.append_assoc]
        rfl
      · rw [hp', hp₁, List.append_assoc]
        rfl

theorem plain_of_rowOfSpec_map (I : List InputRow) (L : List (String × Nat × String × Int)) :
    (L.map (rowOfSpec I)).map plainOf = L := by
  rw [List.map_map]
  have : plainOf ∘ rowOfSpec I = id := by
    funext r
    rfl
  rw [this, List.map_id]

theorem spent_eq_refsKey {s : Store} (hS : SInv s) :
    ∀ o ∈ s.outputs, o.spent = refsKey s.inputs o.txId o.index := by
  intro o ho
  have hiff := hS.spentIff o ho
  rw [referenced_iff] at hiff
  rcases hb : o.spent with _ | _ <;> rcases hr : refsKey s.inputs o.txId o.index with _ | _
  · rfl
  · rw [hb, hr] at hiff
    exact absurd (hiff.mpr rfl) (by simp)
  · rw [hb, hr] at hiff
    exact absurd (hiff.mp rfl) (by simp)
  · rfl

theorem validateBlock_ok {s : Store} {b : Block} (h : validateBlock s b = .ok ()) :
    b.height = expectedHeight s ∧
    (∃ sp', validateTransactions s [] b.transactions = .ok sp') ∧
    b.id = computeBlockId b.height (b.transactions.map (fun t => t.id)) := by
  unfold validateBlock at h
  split at h
  · cases h
  · rename_i hh
    split at h
    · cases h
    · rename_i sp' hsp
      split at h
      · cases h
      · rename_i hid
        refine ⟨by simpa using hh, ⟨sp', hsp⟩, by simpa using hid⟩

theorem validateInputs_ok {s : Store} : ∀ {inputs : List TxInput} {sp : List String}
    {sp' : List String} {sum : Int}, validateInputs s sp inputs = .ok (sp', sum) →
    (∀ i ∈ inputs, ∃ o, findOutput s i.txId i.index = some o ∧ o.spent = false) ∧
    sum = (inputs.map (fun i => referencedValue s i)).sum := by
  intro inputs
  induction inputs with
  | nil =>
    intro sp sp' sum h
    unfold validateInputs at h
    obtain h' := Except.ok.inj h
    refine ⟨by simp, ?_⟩
    have h0 : (0 : Int) = sum := congrArg Prod.snd h'
    simp [← h0]
  | cons inp rest ih =>
    intro sp sp' sum h
    unfold validateInputs at h
    split at h
    · cases h
    · split at h
      · cases h
      · cases h
      · rename_i v hv
        split at h
        · cases h
        · rename_i sp₀ restSum hrest
          obtain h' := Except.ok.inj h
          have hsum : sum = v + restSum := (congrArg Prod.snd h' : _ = sum).symm
          obtain ⟨o, hfo, hosp, hov⟩ := getOutputValue_ok_some hv
          obtain ⟨hrefs, hrsum⟩ := ih hrest
          refine ⟨?_, ?_⟩
          · intro i hi
            rcases List.mem_cons.mp hi with h1 | h1
            · subst h1
              exact ⟨o, hfo, hosp⟩
            · exact hrefs i h1
          · rw [hsum, hrsum, List.map_cons, List.sum_cons]
            congr 1
            unfold referencedValue
            rw [hfo]
            simp [hov]

theorem validateTransactions_ok_refs {s : Store} : ∀ {ts : List Transaction}
    {sp sp' : List String}, validateTransactions s sp ts = .ok sp' →
    ∀ t ∈ ts, ∀ i ∈ t.inputs,
      ∃ o, findOutput s i.txId i.index = some o ∧ o.spent = false := by
  intro ts
  induction ts with
  | nil =>
    intro sp sp' _ t ht
    cases ht
  | cons t rest ih =>
    intro sp sp' h u hu
    unfold validateTransactions at h
    split at h
    · cases h
    · rename_i spv inSum hin
      split at h
      · cases h
      · rcases List.mem_cons.mp hu with h1 | h1
        · subst h1
          exact (validateInputs_ok hin).1
        · exact ih h u h1

theorem sinv_empty : SInv Store.empty := by
  constructor
  · intro o ho
    cases ho
  · exact List.nodup_nil
  · exact List.nodup_nil
  · intro o ho
    cases ho
  · intro r hr
    cases hr
  · intro a
    rfl

theorem chainInv_nil : ChainInv [] Store.empty := by
  refine ⟨rfl, rfl, List.nodup_nil, rfl, rfl, rfl, ?_, sinv_empty⟩
  intro j hj
  cases hj

theorem applyChain_append (s : Store) (l₁ l₂ : List Block) :
    applyChain s (l₁ ++ l₂) =
      match applyChain s l₁ with
      | .ok s' => applyChain s' l₂
      | .error e => .error e := by
  induction l₁ generalizing s with
  | nil => rfl
  | cons b rest ih =>
    show applyChain s ((b :: rest) ++ l₂) = _
    rw [List.cons_append]
    simp only [applyChain]
    rcases hp : processBlock s b with e | s₀ <;> simp only [hp]
    exact ih s₀

/-- One accepted submission extends the chain characterization. -/
theorem chain_step {bs : List Block} {s s' : Store} {b : Block}
    (hC : ChainInv bs s) (h : processBlock s b = .ok s') :
    ChainInv (bs ++ [b]) s' := by
  have hheights : s.blocks.map (fun r => r.2) = List.range' 1 bs.length := by
    rw [hC.blocks_eq, List.map_map]
    exact hC.heights_eq
  unfold processBlock at h
  split at h
  · cases h
  · rename_i u hval
    obtain ⟨⟩ := u
    split at h
    · cases h
    · rename_i s₂ happ
      obtain rfl := Except.ok.inj h
      unfold applyBlock at happ
      split at happ
      · cases happ
      · rename_i s₁ hib
        obtain ⟨hs₁, hfreshB⟩ := insertBlock_ok hib
        have hs₁b : s₁.blocks = s.blocks ++ [(b.id, b.height)] := by rw [hs₁]
        have hs₁t : s₁.txs = s.txs := by rw [hs₁]
        have hs₁o : s₁.outputs = s.outputs := by rw [hs₁]
        have hs₁i : s₁.inputs = s.inputs := by rw [hs₁]
        have hs₁bal : s₁.balances = s.balances := by rw [hs₁]
        have hS₁ : SInv s₁ := SInv_congr hs₁t hs₁o hs₁i hs₁bal hC.sinv
        obtain ⟨hS', hb', ht', hi', hp'⟩ := applyTransactions_spec hS₁ happ
        obtain ⟨hh, ⟨sp', hvt⟩, _⟩ := validateBlock_ok hval
        have hhn : b.height = bs.length + 1 := by
          rw [hh, expectedHeight_of_heights hheights]
        have hbid : b.id ∉ bs.map (fun b => b.id) := by
          intro hmem
          rw [List.mem_map] at hmem
          obtain ⟨bb, hbb, hbbid⟩ := hmem
          have : (bb.id, bb.height) ∈ s.blocks := by
            rw [hC.blocks_eq, List.mem_map]
            exact ⟨bb, hbb, rfl⟩
          exact (hfreshB _ this).1 hbbid
        have hblocks' : s₂.blocks = (bs ++ [b]).map (fun b => (b.id, b.height)) := by
          rw [hb', hs₁b, hC.blocks_eq, List.map_append]
          rfl
        have htxs' : s₂.txs = (bs ++ [b]).flatMap txRowsOf := by
          rw [ht', hs₁t, hC.txs_eq, List.flatMap_append]
          simp [txRowsOf]
        have hinputs' : s₂.inputs = (bs ++ [b]).flatMap inputRowsOf := by
          rw [hi', hs₁i, hC.inputs_eq, List.flatMap_append]
          simp [inputRowsOf]
        have hplains : s₂.outputs.map plainOf = (bs ++ [b]).flatMap outputSpecsOf := by
          rw [hp', hs₁o, hC.outputs_eq, plain_of_rowOfSpec_map, List.flatMap_append]
          simp [outputSpecsOf]
        refine ⟨hblocks', ?_, ?_, htxs', hinputs', ?_, ?_, hS'⟩
        · -- heights
          rw [List.map_append, hC.heights_eq, List.length_append]
          simp only [List.length_cons, List.length_nil, List.map_cons, List.map_nil]
          rw [List.range'_concat 1 bs.length]
          have h11 : 1 + 1 * bs.length = bs.length + 1 := by omega
          rw [h11, hhn]
        · -- block ids nodup
          rw [List.map_append, List.nodup_append]
          refine ⟨hC.blockIds_nodup, by simp, ?_⟩
          intro x hx
          simp only [List.map_cons, List.map_nil, List.mem_singleton]
          intro hxe
          exact hbid (hxe ▸ hx)
        · -- outputs_eq
          apply outputs_determined (I := s₂.inputs)
          · rw [hplains, plain_of_rowOfSpec_map]
          · exact spent_eq_refsKey hS'
          · intro o ho
            rw [List.mem_map] at ho
            obtain ⟨r, _, hr⟩ := ho
            rw [← hr]
            rfl
        · -- refsBack
          intro j hj r hr
          rw [List.length_append] at hj
          simp only [List.length_cons, List.length_nil] at hj
          by_cases hjn : j < bs.length
          · have hget : (bs ++ [b]).get ⟨j, by
                simp only [List.length_append, List.length_cons, List.length_nil]; omega⟩ =
                bs.get ⟨j, hjn⟩ := by
              rw [List.get_eq_getElem, List.get_eq_getElem]
              exact List.getElem_append_left hjn
            rw [hget] at hr
            have htake : (bs ++ [b]).take j = bs.take j := by
              rw [List.take_append_eq_append_take,
                Nat.sub_eq_zero_of_le (Nat.le_of_lt hjn), List.take_zero, List.append_nil]
            rw [htake]
            exact hC.refsBack j hjn r hr
          · have hjeq : j = bs.length := by omega
            subst hjeq
            have hget : (bs ++ [b]).get ⟨bs.length, by
                simp only [List.length_append, List.length_cons, List.length_nil]; omega⟩ = b := by
              rw [List.get_eq_getElem]
              exact List.getElem_concat_length bs b bs.length rfl _
            rw [hget] at hr
            have htake : (bs ++ [b]).take bs.length = bs := List.take_left' rfl
            rw [htake]
            unfold inputRowsOf at hr
            rw [List.mem_flatMap] at hr
            obtain ⟨t, ht, hrt⟩ := hr
            unfold txInputRowsOf at hrt
            rw [List.mem_map] at hrt
            obtain ⟨i, hi, hri⟩ := hrt
            obtain ⟨o, hfo, _⟩ := validateTransactions_ok_refs hvt t ht i hi
            obtain ⟨hot, hoi, _, _, _, _⟩ := findOutput_decomp hfo
            have homem : o ∈ s.outputs := findOutput_mem hfo
            rw [hC.outputs_eq, List.mem_map] at homem
            obtain ⟨r₀, hr₀, hor₀⟩ := homem
            rw [List.mem_map]
            refine ⟨r₀, hr₀, ?_⟩
            have h1 : r₀.1 = o.txId := by rw [← hor₀]; rfl
            have h2 : r₀.2.1 = o.index := by rw [← hor₀]; rfl
            rw [← hri]
            show (r₀.1, r₀.2.1) = (i.txId, i.index)
            rw [h1, h2, hot, hoi]

/-- Every state reached by a successful chain satisfies the chain
characterization. -/
theorem reach_chainInv : ∀ {bs : List Block} {s : Store}, Reach bs s → ChainInv bs s := by
  intro bs
  induction bs using List.reverseRecOn with
  | nil =>
    intro s h
    unfold Reach applyChain at h
    obtain rfl := Except.ok.inj h
    exact chainInv_nil
  | append_singleton l b ih =>
    intro s h
    unfold Reach at h
    rw [applyChain_append] at h
    split at h
    · rename_i s₀ h₀
      have hstep : processBlock s₀ b = .ok s := by
        simp only [applyChain] at h
        split at h
        · cases h
        · rename_i s₁ h₁
          exact h₁.trans h
      exact chain_step (ih h₀) hstep
    · cases h

theorem map_eq_flatMap {α β : Type} (g : α → β) (l : List α) :
    l.map g = l.flatMap (fun a => [g a]) := by
  induction l with
  | nil => rfl
  | cons a t ih => simp [ih]

/-- Filtering a per-block concatenation by a predicate that holds exactly
on the contributions of the blocks from index `j` on: the kept rows are
the prefix contributions, the removed rows the suffix contributions. -/
theorem filter_flatMap_split {α β : Type} (p : β → Bool) :
    ∀ (l : List α) (f : α → List β) (j : Nat),
    (∀ (k : Nat) (hk : k < l.length), ∀ y ∈ f (l.get ⟨k, hk⟩), p y = decide (j ≤ k)) →
    (l.flatMap f).filter (fun y => !(p y)) = (l.take j).flatMap f ∧
    (l.flatMap f).filter p = (l.drop j).flatMap f := by
  intro l
  induction l with
  | nil =>
    intro f j h
    simp
  | cons a t ih =>
    intro f j h
    rcases j with _ | j'
    · have hall : ∀ y ∈ (a :: t).flatMap f, p y = true := by
        intro y hy
        rw [List.mem_flatMap] at hy
        obtain ⟨x, hx, hyx⟩ := hy
        rw [List.mem_iff_get] at hx
        obtain ⟨⟨k, hk⟩, hxk⟩ := hx
        have := h k hk y (by rw [hxk]; exact hyx)
        simpa using this
      constructor
      · rw [List.take_zero]
        show _ = ([] : List β)
        rw [List.filter_eq_nil_iff]
        intro y hy
        simp [hall y hy]
      · rw [List.drop_zero, List.filter_eq_self]
        exact hall
    · have hhead : ∀ y ∈ f a, p y = false := by
        intro y hy
        have := h 0 (by simp) y hy
        simpa using this
      have htail : ∀ (k : Nat) (hk : k < t.length), ∀ y ∈ f (t.get ⟨k, hk⟩),
          p y = decide (j' ≤ k) := by
        intro k hk y hy
        have := h (k + 1) (by simpa using Nat.succ_lt_succ hk) y hy
        rw [this]
        simp [Nat.succ_le_succ_iff]
      obtain ⟨ih1, ih2⟩ := ih f j' htail
      constructor
      · rw [List.flatMap_cons, List.filter_append, ih1, List.take_succ_cons,
          List.flatMap_cons]
        have hfa : (f a).filter (fun y => !(p y)) = f a := by
          rw [List.filter_eq_self]
          intro y hy
          simp [hhead y hy]
        rw [hfa]
      · rw [List.flatMap_cons, List.filter_append, ih2, List.drop_succ_cons]
        have hfa : (f a).filter p = [] := by
          rw [List.filter_eq_nil_iff]
          intro y hy
          simp [hhead y hy]
        rw [hfa, List.nil_append]

theorem reset_blocks (s : Store) : (resetSpentOutputs s).blocks = s.blocks := rfl

theorem reset_txs (s : Store) : (resetSpentOutputs s).txs = s.txs := rfl

theorem reset_inputs (s : Store) : (resetSpentOutputs s).inputs = s.inputs := rfl

theorem recalc_blocks (s : Store) : (recalculateAllBalances s).blocks = s.blocks := rfl

theorem recalc_txs (s : Store) : (recalculateAllBalances s).txs = s.txs := rfl

theorem recalc_outputs (s : Store) : (recalculateAllBalances s).outputs = s.outputs := rfl

theorem recalc_inputs (s : Store) : (recalculateAllBalances s).inputs = s.inputs := rfl

theorem find?_fst_map {β : Type} (l : List String) (g : String → β) (a : String) :
    (l.map (fun x => (x, g x))).find? (fun r => r.1 == a) =
      (l.find? (fun x => x == a)).map (fun x => (x, g x)) := by
  induction l with
  | nil => rfl
  | cons x t ih =>
    by_cases hx : x = a
    · rw [List.map_cons, List.find?_cons_of_pos _ (by simp [hx]),
        List.find?_cons_of_pos _ (by simp [hx]), Option.map_some']
    · rw [List.map_cons, List.find?_cons_of_neg _ (by simp [hx]),
        List.find?_cons_of_neg _ (by simp [hx]), ih]

/-- After `recalculateAllBalances`, the cached balance of every address is
its computed balance. -/
theorem recalc_view (s : Store) (a : String) :
    getAddressBalance (recalculateAllBalances s) a = calculateAddressBalance s a := by
  unfold recalculateAllBalances getAddressBalance
  rw [find?_fst_map]
  rcases hf : (((s.outputs.filter (fun o => o.spent == false)).map
      (fun o => o.address)).dedup).find? (fun x => x == a) with _ | x
  · rw [hf]
    rw [List.find?_eq_none] at hf
    have hnone : ∀ o ∈ s.outputs, ¬(o.address == a && o.spent == false) = true := by
      intro o ho hcon
      have h1 : o.address = a := by
        have := hcon
        simp at this
        exact this.1
      have h2 : o.spent = false := by
        have := hcon
        simp at this
        exact this.2
      have hmem : o.address ∈ ((s.outputs.filter (fun o => o.spent == false)).map
          (fun o => o.address)).dedup := by
        rw [List.mem_dedup, List.mem_map]
        exact ⟨o, List.mem_filter.mpr ⟨ho, by simp [h2]⟩, rfl⟩
      exact hf _ hmem (by simp [h1])
    show (0 : Int) = calculateAddressBalance s a
    unfold calculateAddressBalance
    rw [List.filter_eq_nil_iff.mpr hnone]
    rfl
  · rw [hf]
    have hx : x = a := by
      have := List.find?_some hf
      simpa using this
    show calculateAddressBalance s x = calculateAddressBalance s a
    rw [hx]

/-- In a duplicate-free per-block concatenation, a row of block `k`
appears among the contributions of the blocks from index `j` on exactly
when `j ≤ k`. -/
theorem mem_drop_flatMap_iff {α β : Type} [DecidableEq β] {l : List α} {g : α → List β}
    (hnd : (l.flatMap g).Nodup) {j k : Nat} (hk : k < l.length) {x : β}
    (hx : x ∈ g (l.get ⟨k, hk⟩)) :
    x ∈ (l.drop j).flatMap g ↔ j ≤ k := by
  constructor
  · intro hmem
    by_contra hlt
    rw [Nat.not_le] at hlt
    have hsplit : l = l.take j ++ l.drop j := (List.take_append_drop j l).symm
    have hndsplit := hnd
    rw [hsplit, List.flatMap_append, List.nodup_append] at hndsplit
    have hxA : x ∈ (l.take j).flatMap g := by
      rw [List.mem_flatMap]
      refine ⟨l.get ⟨k, hk⟩, ?_, hx⟩
      have hklen : k < (l.take j).length := by
        rw [List.length_take]
        omega
      have : (l.take j).get ⟨k, hklen⟩ = l.get ⟨k, hk⟩ := by
        rw [List.get_eq_getElem, List.get_eq_getElem]
        exact List.getElem_take l
      rw [← this]
      exact List.get_mem _ _ _
    exact hndsplit.2.2 hxA hmem
  · intro hjk
    rw [List.mem_flatMap]
    refine ⟨l.get ⟨k, hk⟩, ?_, hx⟩
    have hmlen : k - j < (l.drop j).length := by
      rw [List.length_drop]
      omega
    have : (l.drop j).get ⟨k - j, hmlen⟩ = l.get ⟨k, hk⟩ := by
      have h1 : (l.drop j).get ⟨k - j, hmlen⟩ = l.get ⟨j + (k - j), by omega⟩ := by
        rw [List.get_eq_getElem, List.get_eq_getElem]
        exact List.getElem_drop l
      have h2 : l.get ⟨j + (k - j), by omega⟩ = l.get ⟨k, hk⟩ := by
        have hfin : (⟨j + (k - j), by omega⟩ : Fin l.length) = ⟨k, hk⟩ := by
          apply Fin.ext
          show j + (k - j) = k
          omega
        rw [hfin]
      rw [h1, h2]
    rw [← this]
    exact List.get_mem _ _ _

theorem spec_fst_mem {b : Block} {r : String × Nat × String × Int}
    (hr : r ∈ outputSpecsOf b) : r.1 ∈ (txRowsOf b).map (fun t => t.1) := by
  unfold outputSpecsOf at hr
  rw [List.mem_flatMap] at hr
  obtain ⟨t, ht, hrt⟩ := hr
  unfold txOutputSpecsOf at hrt
  rw [List.mem_map] at hrt
  obtain ⟨p, _, hp⟩ := hrt
  unfold txRowsOf
  rw [List.map_map, List.mem_map]
  refine ⟨t, ht, ?_⟩
  rw [← hp]
  rfl

theorem inputRow_fst_mem {b : Block} {r : InputRow}
    (hr : r ∈ inputRowsOf b) : r.txId ∈ (txRowsOf b).map (fun t => t.1) := by
  unfold inputRowsOf at hr
  rw [List.mem_flatMap] at hr
  obtain ⟨t, ht, hrt⟩ := hr
  unfold txInputRowsOf at hrt
  rw [List.mem_map] at hrt
  obtain ⟨i, _, hi⟩ := hrt
  unfold txRowsOf
  rw [List.map_map, List.mem_map]
  refine ⟨t, ht, ?_⟩
  rw [← hi]
  rfl

theorem contains_eq_decideS (l : List String) (a : String) :
    l.contains a = decide (a ∈ l) := by
  simp [List.elem_eq_mem]

theorem heights_get {bs : List Block} {s : Store} (hC : ChainInv bs s)
    (k : Nat) (hk : k < bs.length) : (bs.get ⟨k, hk⟩).height = k + 1 := by
  have hq : (bs.map (fun b => b.height))[k]? = (List.range' 1 bs.length)[k]? := by
    rw [hC.heights_eq]
  have hk1 : k < (bs.map (fun b => b.height)).length := by rw [List.length_map]; exact hk
  have hk2 : k < (List.range' 1 bs.length).length := by rw [List.length_range']; exact hk
  rw [List.getElem?_eq_getElem hk1, List.getElem?_eq_getElem hk2] at hq
  have hval := Option.some.inj hq
  rw [List.getElem_map, List.getElem_range'] at hval
  have hval2 : (bs.get ⟨k, hk⟩).height = 1 + 1 * k := hval
  omega

/-- Deleting the blocks above height `j` from a chain state keeps exactly
the rows contributed by the first `j` blocks (the spent flags of the kept
outputs are untouched here). -/
theorem delete_chain {bs : List Block} {s : Store} (hC : ChainInv bs s) (j : Nat) :
    (deleteBlocksAboveHeight s (j : Int)).blocks =
      (bs.take j).map (fun b => (b.id, b.height)) ∧
    (deleteBlocksAboveHeight s (j : Int)).txs = (bs.take j).flatMap txRowsOf ∧
    (deleteBlocksAboveHeight s (j : Int)).outputs =
      ((bs.take j).flatMap outputSpecsOf).map (rowOfSpec s.inputs) ∧
    (deleteBlocksAboveHeight s (j : Int)).inputs = (bs.take j).flatMap inputRowsOf := by
  have hBflat : s.blocks = bs.flatMap (fun b => [(b.id, b.height)]) := by
    rw [hC.blocks_eq, map_eq_flatMap]
  have hpB : ∀ (k : Nat) (hk : k < bs.length),
      ∀ y ∈ (fun b => [(b.id, b.height)]) (bs.get ⟨k, hk⟩),
        (fun (r : String × Nat) => decide ((r.2 : Int) > (j : Int))) y = decide (j ≤ k) := by
    intro k hk y hy
    rw [List.mem_singleton] at hy
    subst hy
    show decide (((bs.get ⟨k, hk⟩).height : Int) > (j : Int)) = decide (j ≤ k)
    rw [heights_get hC k hk, decide_eq_decide]
    omega
  obtain ⟨hBkeep, hBdead⟩ := filter_flatMap_split
    (fun (r : String × Nat) => decide ((r.2 : Int) > (j : Int))) bs
    (fun b => [(b.id, b.height)]) j hpB
  have hblocks : (deleteBlocksAboveHeight s (j : Int)).blocks =
      (bs.take j).map (fun b => (b.id, b.height)) := by
    show s.blocks.filter _ = _
    rw [hBflat, hBkeep, ← map_eq_flatMap]
  have hdeadB : deadBlockIdsOf s (j : Int) = (bs.drop j).map (fun b => b.id) := by
    unfold deadBlockIdsOf
    rw [hBflat, hBdead, ← map_eq_flatMap, List.map_map]
    rfl
  have hndB : (bs.flatMap (fun b => [b.id])).Nodup := by
    rw [← map_eq_flatMap]
    exact hC.blockIds_nodup
  have hmemB : ∀ (k : Nat) (hk : k < bs.length),
      ((bs.drop j).map (fun b => b.id)).contains (bs.get ⟨k, hk⟩).id = decide (j ≤ k) := by
    intro k hk
    rw [contains_eq_decideS, decide_eq_decide, map_eq_flatMap]
    exact mem_drop_flatMap_iff hndB hk (by rw [List.mem_singleton])
  have hpT : ∀ (k : Nat) (hk : k < bs.length), ∀ y ∈ txRowsOf (bs.get ⟨k, hk⟩),
      (fun (t : String × String) => ((bs.drop j).map (fun b => b.id)).contains t.2) y
        = decide (j ≤ k) := by
    intro k hk y hy
    unfold txRowsOf at hy
    rw [List.mem_map] at hy
    obtain ⟨t, _, hty⟩ := hy
    show ((bs.drop j).map (fun b => b.id)).contains y.2 = _
    rw [← hty]
    exact hmemB k hk
  obtain ⟨hTkeep, hTdead⟩ := filter_flatMap_split
    (fun (t : String × String) => ((bs.drop j).map (fun b => b.id)).contains t.2)
    bs txRowsOf j hpT
  have htxs : (deleteBlocksAboveHeight s (j : Int)).txs = (bs.take j).flatMap txRowsOf := by
    show s.txs.filter _ = _
    rw [hdeadB, hC.txs_eq, hTkeep]
  have hdeadT : deadTxIdsOf s (j : Int) =
      ((bs.drop j).flatMap txRowsOf).map (fun t => t.1) := by
    unfold deadTxIdsOf
    rw [hdeadB, hC.txs_eq, hTdead]
  have hndT : (bs.flatMap (fun b => (txRowsOf b).map (fun t => t.1))).Nodup := by
    have hnd := hC.sinv.txNodup
    rw [hC.txs_eq, List.map_flatMap] at hnd
    exact hnd
  have hmemT : ∀ (k : Nat) (hk : k < bs.length),
      ∀ x ∈ (txRowsOf (bs.get ⟨k, hk⟩)).map (fun t => t.1),
      (((bs.drop j).flatMap txRowsOf).map (fun t => t.1)).contains x = decide (j ≤ k) := by
    intro k hk x hx
    rw [contains_eq_decideS, decide_eq_decide, List.map_flatMap]
    exact mem_drop_flatMap_iff hndT hk hx
  have hOflat : s.outputs = bs.flatMap (fun b => (outputSpecsOf b).map (rowOfSpec s.inputs)) := by
    rw [hC.outputs_eq, List.map_flatMap]
  have hpO : ∀ (k : Nat) (hk : k < bs.length),
      ∀ y ∈ (fun b => (outputSpecsOf b).map (rowOfSpec s.inputs)) (bs.get ⟨k, hk⟩),
      (fun (o : OutputRow) =>
        (((bs.drop j).flatMap txRowsOf).map (fun t => t.1)).contains o.txId) y
        = decide (j ≤ k) := by
    intro k hk y hy
    rw [List.mem_map] at hy
    obtain ⟨r, hr, hry⟩ := hy
    show (((bs.drop j).flatMap txRowsOf).map (fun t => t.1)).contains y.txId = _
    have hyr : y.txId = r.1 := by rw [← hry]; rfl
    rw [hyr]
    exact hmemT k hk r.1 (spec_fst_mem hr)
  obtain ⟨hOkeep, hOdead⟩ := filter_flatMap_split
    (fun (o : OutputRow) =>
      (((bs.drop j).flatMap txRowsOf).map (fun t => t.1)).contains o.txId)
    bs (fun b => (outputSpecsOf b).map (rowOfSpec s.inputs)) j hpO
  have houtputs : (deleteBlocksAboveHeight s (j : Int)).outputs =
      ((bs.take j).flatMap outputSpecsOf).map (rowOfSpec s.inputs) := by
    show s.outputs.filter _ = _
    rw [hdeadT, hOflat, hOkeep, ← List.map_flatMap]
  have hdeadO : deadOutputsOf s (j : Int) =
      (bs.drop j).flatMap (fun b => (outputSpecsOf b).map (rowOfSpec s.inputs)) := by
    unfold deadOutputsOf
    rw [hdeadT, hOflat, hOdead]
  have hpI : ∀ (k : Nat) (hk : k < bs.length), ∀ y ∈ inputRowsOf (bs.get ⟨k, hk⟩),
      (fun (i : InputRow) =>
        ((((bs.drop j).flatMap txRowsOf).map (fun t => t.1)).contains i.txId ||
        ((bs.drop j).flatMap (fun b => (outputSpecsOf b).map (rowOfSpec s.inputs))).any
          (fun o => o.txId == i.spentTxId && o.index == i.spentIndex))) y
        = decide (j ≤ k) := by
    intro k hk y hy
    by_cases hjk : j ≤ k
    · rw [decide_eq_true hjk]
      have h1 : (((bs.drop j).flatMap txRowsOf).map (fun t => t.1)).contains y.txId = true := by
        rw [contains_eq_decideS, List.map_flatMap, decide_eq_true_eq]
        exact (mem_drop_flatMap_iff hndT hk (inputRow_fst_mem hy)).mpr hjk
      show (_ || _) = true
      rw [h1, Bool.true_or]
    · have hd : decide (j ≤ k) = false := by simp [hjk]
      rw [hd]
      have h1 : (((bs.drop j).flatMap txRowsOf).map (fun t => t.1)).contains y.txId = false := by
        rw [contains_eq_decideS, List.map_flatMap]
        simp only [decide_eq_false_iff_not]
        intro hmem
        exact hjk ((mem_drop_flatMap_iff hndT hk (inputRow_fst_mem hy)).mp hmem)
      have h2 : ((bs.drop j).flatMap (fun b => (outputSpecsOf b).map (rowOfSpec s.inputs))).any
          (fun o => o.txId == y.spentTxId && o.index == y.spentIndex) = false := by
        rw [Bool.eq_false_iff, Ne, List.any_eq_true]
        rintro ⟨o, ho, hmatch⟩
        rw [Bool.and_eq_true, beq_iff_eq, beq_iff_eq] at hmatch
        have hot : o.txId = y.spentTxId := hmatch.1
        rw [List.mem_flatMap] at ho
        obtain ⟨bdead, hbdead, hodead⟩ := ho
        rw [List.mem_map] at hodead
        obtain ⟨r0, hr0, hor0⟩ := hodead
        have hmx : o.txId = r0.1 := by rw [← hor0]; rfl
        have hrb := hC.refsBack k hk y hy
        rw [List.mem_map] at hrb
        obtain ⟨r1, hr1, hkey⟩ := hrb
        have hr1fst : r1.1 = y.spentTxId := congrArg Prod.fst hkey
        rw [List.mem_flatMap] at hr1
        obtain ⟨bpre, hbpre, hr1b⟩ := hr1
        rw [List.mem_iff_get] at hbpre
        obtain ⟨⟨m, hm⟩, hbm⟩ := hbpre
        have hmlen : m < bs.length := by
          have hlen := hm
          rw [List.length_take] at hlen
          omega
        have hmk : m < k := by
          have hlen := hm
          rw [List.length_take] at hlen
          omega
        have hbpre_eq : bpre = bs.get ⟨m, hmlen⟩ := by
          rw [← hbm, List.get_eq_getElem, List.get_eq_getElem]
          exact List.getElem_take bs
        have hmemp : y.spentTxId ∈ (txRowsOf (bs.get ⟨m, hmlen⟩)).map (fun t => t.1) := by
          have hs := spec_fst_mem hr1b
          rw [hr1fst, hbpre_eq] at hs
          exact hs
        have hmemd : y.spentTxId ∈
            (bs.drop j).flatMap (fun b => (txRowsOf b).map (fun t => t.1)) := by
          rw [List.mem_flatMap]
          refine ⟨bdead, hbdead, ?_⟩
          have hs := spec_fst_mem hr0
          rw [← hot, hmx]
          exact hs
        have := (mem_drop_flatMap_iff hndT hmlen hmemp).mp hmemd
        omega
      show (_ || _) = false
      rw [h1, h2]
      rfl
  obtain ⟨hIkeep, _⟩ := filter_flatMap_split
    (fun (i : InputRow) =>
      ((((bs.drop j).flatMap txRowsOf).map (fun t => t.1)).contains i.txId ||
      ((bs.drop j).flatMap (fun b => (outputSpecsOf b).map (rowOfSpec s.inputs))).any
        (fun o => o.txId == i.spentTxId && o.index == i.spentIndex)))
    bs inputRowsOf j hpI
  have hinputs : (deleteBlocksAboveHeight s (j : Int)).inputs =
      (bs.take j).flatMap inputRowsOf := by
    show s.inputs.filter _ = _
    rw [hdeadT, hdeadO, hC.inputs_eq]
    rw [← hIkeep]
    apply List.filter_congr
    intro i _
    rw [hC.inputs_eq, Bool.not_or]
  exact ⟨hblocks, htxs, houtputs, hinputs⟩

/-- Pointwise effect of `resetSpentOutputs` on a row whose flag agrees
with the full input list, relative to the surviving inputs. -/
theorem reset_row {I K : List InputRow} (hsub : ∀ x ∈ K, x ∈ I)
    (r : String × Nat × String × Int) :
    (if (rowOfSpec I r).spent && !(K.any (fun i =>
        i.spentTxId == (rowOfSpec I r).txId && i.spentIndex == (rowOfSpec I r).index)) then
      { rowOfSpec I r with spent := false } else rowOfSpec I r) = rowOfSpec K r := by
  show (if refsKey I r.1 r.2.1 && !(refsKey K r.1 r.2.1) then _ else _) = _
  rcases hI : refsKey I r.1 r.2.1 with _ | _ <;>
    rcases hK : refsKey K r.1 r.2.1 with _ | _
  · simp only [rowOfSpec, hI, hK]
    simp
  · exact absurd (refsKey_mono hsub hK) (by rw [hI]; simp)
  · simp only [rowOfSpec, hI, hK]
    simp
  · simp only [rowOfSpec, hI, hK]
    simp

/-- After deletion and `resetSpentOutputs`, the kept outputs carry exactly
the spent flags dictated by the surviving inputs. -/
theorem reset_on_delete {bs : List Block} {s : Store} (hC : ChainInv bs s) (j : Nat) :
    (resetSpentOutputs (deleteBlocksAboveHeight s (j : Int))).outputs =
      ((bs.take j).flatMap outputSpecsOf).map
        (rowOfSpec ((bs.take j).flatMap inputRowsOf)) := by
  obtain ⟨_, _, ho, hi⟩ := delete_chain hC j
  show ((deleteBlocksAboveHeight s (j : Int)).outputs.map _) = _
  rw [ho, hi, List.map_map]
  apply List.map_congr_left
  intro r _
  have hsub : ∀ x ∈ (bs.take j).flatMap inputRowsOf, x ∈ s.inputs := by
    intro x hx
    rw [hC.inputs_eq]
    rw [List.mem_flatMap] at hx ⊢
    obtain ⟨b, hb, hxb⟩ := hx
    exact ⟨b, List.take_subset j bs hb, hxb⟩
  exact reset_row hsub r

/-- The rollback transaction body, applied to a chain state, yields the
prefix chain's relations with a freshly consistent balance cache. -/
theorem rollbackMutation_chain {bs : List Block} {s : Store} (hC : ChainInv bs s) (j : Nat) :
    (rollbackMutation s (j : Int)).blocks = (bs.take j).map (fun b => (b.id, b.height)) ∧
    (rollbackMutation s (j : Int)).txs = (bs.take j).flatMap txRowsOf ∧
    (rollbackMutation s (j : Int)).inputs = (bs.take j).flatMap inputRowsOf ∧
    (rollbackMutation s (j : Int)).outputs = ((bs.take j).flatMap outputSpecsOf).map
      (rowOfSpec ((bs.take j).flatMap inputRowsOf)) ∧
    ∀ a, getAddressBalance (rollbackMutation s (j : Int)) a =
      calculateAddressBalance (rollbackMutation s (j : Int)) a := by
  obtain ⟨hb, ht, _, hi⟩ := delete_chain hC j
  unfold rollbackMutation
  refine ⟨?_, ?_, ?_, ?_, ?_⟩
  · rw [recalc_blocks, reset_blocks, hb]
  · rw [recalc_txs, reset_txs, ht]
  · rw [recalc_inputs, reset_inputs, hi]
  · rw [recalc_outputs, reset_on_delete hC j]
  · intro a
    rw [recalc_view]
    unfold calculateAddressBalance
    rw [recalc_outputs]

/-- A prefix of an accepted chain is accepted. -/
theorem reach_prefix {bs : List Block} {s : Store} (h : Reach bs s) (j : Nat) :
    ∃ sj, Reach (bs.take j) sj := by
  have hsplit : bs = bs.take j ++ bs.drop j := (List.take_append_drop j bs).symm
  unfold Reach at h
  rw [hsplit, applyChain_append] at h
  split at h
  · rename_i sj hsj
    exact ⟨sj, hsj⟩
  · cases h

/-- The rollback mutation on a chain state mirrors the prefix chain
state. -/
theorem rollbackMutation_mirror {bs : List Block} {s : Store} (hC : ChainInv bs s)
    {j : Nat} {sj : Store} (hRj : Reach (bs.take j) sj) :
    Mirror (rollbackMutation s (j : Int)) sj := by
  have hCj := reach_chainInv hRj
  obtain ⟨hb, ht, hi, ho, hv⟩ := rollbackMutation_chain hC j
  refine ⟨⟨?_, ?_, ?_, ?_⟩, ?_⟩
  · rw [hb, hCj.blocks_eq]
  · rw [ht, hCj.txs_eq]
  · rw [ho, hCj.outputs_eq, hCj.inputs_eq]
  · rw [hi, hCj.inputs_eq]
  · intro a
    rw [hv a, hCj.sinv.balView a]
    unfold calculateAddressBalance
    rw [ho, hCj.outputs_eq, hCj.inputs_eq]

theorem mirror_refl (s : Store) : Mirror s s := ⟨⟨rfl, rfl, rfl, rfl⟩, fun _ => rfl⟩

theorem mirror_trans {a b c : Store} (h₁ : Mirror a b) (h₂ : Mirror b c) : Mirror a c := by
  obtain ⟨⟨b1, t1, o1, i1⟩, v1⟩ := h₁
  obtain ⟨⟨b2, t2, o2, i2⟩, v2⟩ := h₂
  exact ⟨⟨b1.trans b2, t1.trans t2, o1.trans o2, i1.trans i2⟩,
    fun a => (v1 a).trans (v2 a)⟩

theorem getCurrentHeight_congr {s t : Store} (h : s.blocks = t.blocks) :
    getCurrentHeight s = getCurrentHeight t := by
  unfold getCurrentHeight
  rw [h]

theorem expectedHeight_congr {s t : Store} (h : s.blocks = t.blocks) :
    expectedHeight s = expectedHeight t := by
  unfold expectedHeight
  rw [getCurrentHeight_congr h]

theorem getOutputValue_congr {s t : Store} (h : s.outputs = t.outputs) (a : String) (i : Nat) :
    getOutputValue s a i = getOutputValue t a i := by
  unfold getOutputValue findOutput
  rw [h]

theorem getOutputAddress_congr {s t : Store} (h : s.outputs = t.outputs) (a : String) (i : Nat) :
    getOutputAddress s a i = getOutputAddress t a i := by
  unfold getOutputAddress findOutput
  rw [h]

theorem validateInputs_congr {s t : Store} (h : s.outputs = t.outputs) :
    ∀ (inputs : List TxInput) (sp : List String),
    validateInputs s sp inputs = validateInputs t sp inputs := by
  intro inputs
  induction inputs with
  | nil => intro sp; rfl
  | cons inp rest ih =>
    intro sp
    unfold validateInputs
    rw [getOutputValue_congr h, ih]

theorem validateTransactions_congr {s t : Store} (h : s.outputs = t.outputs) :
    ∀ (ts : List Transaction) (sp : List String),
    validateTransactions s sp ts = validateTransactions t sp ts := by
  intro ts
  induction ts with
  | nil => intro sp; rfl
  | cons u rest ih =>
    intro sp
    unfold validateTransactions
    rw [validateInputs_congr h]
    rcases validateInputs t sp u.inputs with e | p
    · rfl
    · rcases p with ⟨sp2, inSum⟩
      dsimp only
      split
      · rfl
      · exact ih sp2

theorem validateBlock_congr {s t : Store} (hb : s.blocks = t.blocks)
    (ho : s.outputs = t.outputs) (b : Block) :
    validateBlock s b = validateBlock t b := by
  unfold validateBlock
  rw [expectedHeight_congr hb, validateTransactions_congr ho]

theorem mark_mirror {s t : Store} (hM : Mirror s t) (a : String) (i : Nat) :
    Mirror (markOutputAsSpent s a i) (markOutputAsSpent t a i) := by
  obtain ⟨⟨hb, ht, ho, hi⟩, hv⟩ := hM
  refine ⟨⟨?_, ?_, ?_, ?_⟩, ?_⟩
  · rw [mark_blocks, mark_blocks, hb]
  · rw [mark_txs, mark_txs, ht]
  · show s.outputs.map _ = t.outputs.map _
    rw [ho]
  · rw [mark_inputs, mark_inputs, hi]
  · intro x
    have hgen : ∀ u : Store, getAddressBalance (markOutputAsSpent u a i) x =
        getAddressBalance u x := by
      intro u
      unfold getAddressBalance
      rw [mark_balances]
    rw [hgen, hgen]
    exact hv x

theorem update_mirror {s t : Store} (hM : Mirror s t) (a : String) (d : Int) :
    Mirror (updateAddressBalance s a d) (updateAddressBalance t a d) := by
  obtain ⟨⟨hb, ht, ho, hi⟩, hv⟩ := hM
  refine ⟨⟨?_, ?_, ?_, ?_⟩, ?_⟩
  · rw [update_blocks, update_blocks, hb]
  · rw [update_txs, update_txs, ht]
  · rw [update_outputs, update_outputs, ho]
  · rw [update_inputs, update_inputs, hi]
  · intro x
    rw [getAddressBalance_update, getAddressBalance_update, hv x]

theorem insertBlock_mirror {s t : Store} (hM : Mirror s t) (a : String) (n : Nat) :
    MirrorE (insertBlock s a n) (insertBlock t a n) := by
  obtain ⟨⟨hb, ht, ho, hi⟩, hv⟩ := hM
  unfold insertBlock
  rw [hb]
  split
  · exact rfl
  · show Mirror _ _
    exact ⟨⟨rfl, ht, ho, hi⟩, hv⟩

theorem insertTransaction_mirror {s t : Store} (hM : Mirror s t) (a b : String) :
    MirrorE (insertTransaction s a b) (insertTransaction t a b) := by
  obtain ⟨⟨hb, ht, ho, hi⟩, hv⟩ := hM
  unfold insertTransaction
  rw [ht, hb]
  split
  · exact rfl
  · split
    · exact rfl
    · show Mirror _ _
      exact ⟨⟨rfl, rfl, ho, hi⟩, hv⟩

theorem insertOutput_mirror {s t : Store} (hM : Mirror s t) (a : String) (i : Nat)
    (addr : String) (v : Int) :
    MirrorE (insertOutput s a i addr v) (insertOutput t a i addr v) := by
  obtain ⟨⟨hb, ht, ho, hi⟩, hv⟩ := hM
  unfold insertOutput
  rw [ho, ht]
  split
  · show Mirror _ _
    exact ⟨⟨hb, ht, ho, hi⟩, hv⟩
  · split
    · exact rfl
    · show Mirror _ _
      exact ⟨⟨hb, rfl, rfl, hi⟩, hv⟩

theorem insertInput_mirror {s t : Store} (hM : Mirror s t) (a b : String) (c : Nat) :
    MirrorE (insertInput s a b c) (insertInput t a b c) := by
  obtain ⟨⟨hb, ht, ho, hi⟩, hv⟩ := hM
  unfold insertInput
  rw [ht, ho]
  split
  · exact rfl
  · split
    · exact rfl
    · show Mirror _ _
      exact ⟨⟨hb, rfl, rfl, by rw [hi]⟩, hv⟩

theorem applyInput_mirror {s t : Store} (hM : Mirror s t) (tid : String) (inp : TxInput) :
    MirrorE (applyInput s tid inp) (applyInput t tid inp) := by
  have ho := hM.1.2.2.1
  unfold applyInput
  rw [getOutputValue_congr ho, getOutputAddress_congr ho]
  rcases getOutputValue t inp.txId inp.index with e | v?
  · exact rfl
  · rcases v? with _ | v
    · exact rfl
    · rcases getOutputAddress t inp.txId inp.index with _ | addr
      · exact rfl
      · dsimp only
        by_cases hc : (addr == "") = true
        · rw [if_pos hc, if_pos hc]
          exact rfl
        · rw [if_neg hc, if_neg hc]
          have hmm := insertInput_mirror (mark_mirror hM inp.txId inp.index) tid inp.txId
            inp.index
          rcases h₁ : insertInput (markOutputAsSpent s inp.txId inp.index) tid inp.txId
              inp.index with e₁ | s₁ <;>
            rcases h₂ : insertInput (markOutputAsSpent t inp.txId inp.index) tid inp.txId
                inp.index with e₂ | t₁ <;> rw [h₁, h₂] at hmm
          · exact hmm
          · cases hmm
          · cases hmm
          · show Mirror _ _
            exact update_mirror hmm addr (-v)

theorem applyInputs_mirror {tid : String} : ∀ {inputs : List TxInput} {s t : Store},
    Mirror s t → MirrorE (applyInputs s tid inputs) (applyInputs t tid inputs) := by
  intro inputs
  induction inputs with
  | nil =>
    intro s t hM
    exact hM
  | cons inp rest ih =>
    intro s t hM
    have hstep := applyInput_mirror hM tid inp
    unfold applyInputs
    rcases h₁ : applyInput s tid inp with e₁ | s₁ <;>
      rcases h₂ : applyInput t tid inp with e₂ | t₁ <;> rw [h₁, h₂] at hstep
    · exact hstep
    · cases hstep
    · cases hstep
    · exact ih hstep

theorem applyOutputs_mirror {tid : String} : ∀ {outs : List TxOutput} {i : Nat} {s t : Store},
    Mirror s t → MirrorE (applyOutputs s tid i outs) (applyOutputs t tid i outs) := by
  intro outs
  induction outs with
  | nil =>
    intro i s t hM
    exact hM
  | cons o rest ih =>
    intro i s t hM
    have hstep := insertOutput_mirror hM tid i o.address o.value
    unfold applyOutputs
    rcases h₁ : insertOutput s tid i o.address o.value with e₁ | s₁ <;>
      rcases h₂ : insertOutput t tid i o.address o.value with e₂ | t₁ <;> rw [h₁, h₂] at hstep
    · exact hstep
    · cases hstep
    · cases hstep
    · exact ih (update_mirror hstep o.address o.value)

theorem processBlockTransaction_mirror {s t : Store} (hM : Mirror s t) (u : Transaction)
    (bid : String) :
    MirrorE (processBlockTransaction s u bid) (processBlockTransaction t u bid) := by
  have hstep := insertTransaction_mirror hM u.id bid
  unfold processBlockTransaction
  rcases h₁ : insertTransaction s u.id bid with e₁ | s₁ <;>
    rcases h₂ : insertTransaction t u.id bid with e₂ | t₁ <;> rw [h₁, h₂] at hstep
  · exact hstep
  · cases hstep
  · cases hstep
  · dsimp only
    have hstep₂ := @applyInputs_mirror u.id u.inputs s₁ t₁ hstep
    rcases h₃ : applyInputs s₁ u.id u.inputs with e₃ | s₂ <;>
      rcases h₄ : applyInputs t₁ u.id u.inputs with e₄ | t₂ <;> rw [h₃, h₄] at hstep₂
    · exact hstep₂
    · cases hstep₂
    · cases hstep₂
    · exact applyOutputs_mirror hstep₂

theorem applyTransactions_mirror {bid : String} : ∀ {ts : List Transaction} {s t : Store},
    Mirror s t → MirrorE (applyTransactions s bid ts) (applyTransactions t bid ts) := by
  intro ts
  induction ts with
  | nil =>
    intro s t hM
    exact hM
  | cons u rest ih =>
    intro s t hM
    have hstep := processBlockTransaction_mirror hM u bid
    unfold applyTransactions
    rcases h₁ : processBlockTransaction s u bid with e₁ | s₁ <;>
      rcases h₂ : processBlockTransaction t u bid with e₂ | t₁ <;> rw [h₁, h₂] at hstep
    · exact hstep
    · cases hstep
    · cases hstep
    · exact ih hstep

theorem applyBlock_mirror {s t : Store} (hM : Mirror s t) (b : Block) :
    MirrorE (applyBlock s b) (applyBlock t b) := by
  have hstep := insertBlock_mirror hM b.id b.height
  unfold applyBlock
  rcases h₁ : insertBlock s b.id b.height with e₁ | s₁ <;>
    rcases h₂ : insertBlock t b.id b.height with e₂ | t₁ <;> rw [h₁, h₂] at hstep
  · exact hstep
  · cases hstep
  · cases hstep
  · exact applyTransactions_mirror hstep

/-- Mirrored states accept and reject the same blocks, with mirrored
results. -/
theorem processBlock_mirror {s t : Store} (hM : Mirror s t) (b : Block) :
    MirrorE (processBlock s b) (processBlock t b) := by
  unfold processBlock
  rw [validateBlock_congr hM.1.1 hM.1.2.2.1]
  rcases validateBlock t b with e | u
  · exact rfl
  · have hstep := applyBlock_mirror hM b
    rcases h₁ : applyBlock s b with e₁ | s₁ <;>
      rcases h₂ : applyBlock t b with e₂ | t₁ <;> rw [h₁, h₂] at hstep
    · show PErr.store e₁ = PErr.store e₂
      rw [hstep]
    · cases hstep
    · cases hstep
    · exact hstep

theorem deadBlockIdsOf_congr {s t : Store} (hb : s.blocks = t.blocks) (h : Int) :
    deadBlockIdsOf s h = deadBlockIdsOf t h := by
  unfold deadBlockIdsOf
  rw [hb]

theorem deadTxIdsOf_congr {s t : Store} (hb : s.blocks = t.blocks) (ht : s.txs = t.txs)
    (h : Int) : deadTxIdsOf s h = deadTxIdsOf t h := by
  unfold deadTxIdsOf
  rw [ht, deadBlockIdsOf_congr hb]

theorem deadOutputsOf_congr {s t : Store} (hb : s.blocks = t.blocks) (ht : s.txs = t.txs)
    (ho : s.outputs = t.outputs) (h : Int) : deadOutputsOf s h = deadOutputsOf t h := by
  unfold deadOutputsOf
  rw [ho, deadTxIdsOf_congr hb ht]

theorem delete_congr {s t : Store} (hc : CoreEq s t) (h : Int) :
    CoreEq (deleteBlocksAboveHeight s h) (deleteBlocksAboveHeight t h) := by
  obtain ⟨hb, ht, ho, hi⟩ := hc
  refine ⟨?_, ?_, ?_, ?_⟩ <;> dsimp only [deleteBlocksAboveHeight]
  · rw [hb]
  · rw [ht, deadBlockIdsOf_congr hb]
  · rw [ho, deadTxIdsOf_congr hb ht]
  · rw [hi, deadTxIdsOf_congr hb ht, deadOutputsOf_congr hb ht ho]

theorem reset_congr {s t : Store} (hc : CoreEq s t) :
    CoreEq (resetSpentOutputs s) (resetSpentOutputs t) := by
  obtain ⟨hb, ht, ho, hi⟩ := hc
  refine ⟨?_, ?_, ?_, ?_⟩ <;> dsimp only [resetSpentOutputs]
  · exact hb
  · exact ht
  · rw [ho, hi]
  · exact hi

theorem recalc_congr {s t : Store} (hc : CoreEq s t) :
    CoreEq (recalculateAllBalances s) (recalculateAllBalances t) ∧
    (recalculateAllBalances s).balances = (recalculateAllBalances t).balances := by
  obtain ⟨hb, ht, ho, hi⟩ := hc
  have hcalc : calculateAddressBalance s = calculateAddressBalance t := by
    funext a
    unfold calculateAddressBalance
    rw [ho]
  refine ⟨⟨?_, ?_, ?_, ?_⟩, ?_⟩ <;> dsimp only [recalculateAllBalances]
  · exact hb
  · exact ht
  · exact ho
  · exact hi
  · rw [ho, hcalc]

theorem rollbackMutation_congr {s t : Store} (hc : CoreEq s t) (h : Int) :
    CoreEq (rollbackMutation s h) (rollbackMutation t h) ∧
    (rollbackMutation s h).balances = (rollbackMutation t h).balances := by
  unfold rollbackMutation
  exact recalc_congr (reset_congr (delete_congr hc h))

theorem viewEq_of_balances_eq {s t : Store} (h : s.balances = t.balances) : ViewEq s t := by
  intro a
  unfold getAddressBalance
  rw [h]

/-- Mirrored states accept and reject the same rollbacks, with mirrored
results. -/
theorem rollbackToHeight_mirror {s t : Store} (hM : Mirror s t) (tgt : Int) :
    MirrorE (rollbackToHeight s tgt) (rollbackToHeight t tgt) := by
  obtain ⟨hc, hv⟩ := hM
  unfold rollbackToHeight
  rw [getCurrentHeight_congr hc.1]
  split
  · exact rfl
  · rcases getCurrentHeight t with _ | h
    · show Mirror _ _
      exact ⟨hc, hv⟩
    · dsimp only
      split
      · show Mirror _ _
        exact ⟨hc, hv⟩
      · show Mirror _ _
        obtain ⟨hcore, hbal⟩ := rollbackMutation_congr hc tgt
        exact ⟨hcore, viewEq_of_balances_eq hbal⟩

/-- A successful rollback from a chain state lands in a reachable state. -/
theorem reach_rollback {bs : List Block} {t : Store} (hR : Reach bs t) {tgt : Int} {r : Store}
    (h : rollbackToHeight t tgt = .ok r) : Reachable r := by
  have hC := reach_chainInv hR
  have hbh : t.blocks.map (fun b => b.2) = List.range' 1 bs.length := by
    rw [hC.blocks_eq, List.map_map]
    exact hC.heights_eq
  have hgh := getCurrentHeight_of_heights hbh
  unfold rollbackToHeight at h
  split at h
  · cases h
  · rename_i hneg
    rw [hgh] at h
    by_cases hz : bs.length = 0
    · rw [if_pos hz] at h
      cases h
      exact ⟨bs, t, hR, mirror_refl t⟩
    · rw [if_neg hz] at h
      dsimp only at h
      split at h
      · cases h
        exact ⟨bs, t, hR, mirror_refl t⟩
      · rename_i hlt
        cases h
        obtain ⟨sj, hRj⟩ := reach_prefix hR tgt.toNat
        have hMj := rollbackMutation_mirror hC hRj
        have hjt : (tgt.toNat : Int) = tgt := Int.toNat_of_nonneg (by omega)
        rw [hjt] at hMj
        exact ⟨bs.take tgt.toNat, sj, hRj, hMj⟩

/-- One engine operation takes reachable states to reachable states. -/
theorem applyOp_reachable {s : Store} (hs : Reachable s) (op : Op) :
    Reachable (applyOp s op) := by
  obtain ⟨bs, t, hR, hM⟩ := hs
  cases op with
  | submit b =>
    have hPM := processBlock_mirror hM b
    dsimp only [applyOp]
    rcases h₁ : processBlock s b with e₁ | s₁ <;>
      rcases h₂ : processBlock t b with e₂ | t₁ <;> rw [h₁, h₂] at hPM
    · exact ⟨bs, t, hR, hM⟩
    · cases hPM
    · cases hPM
    · refine ⟨bs ++ [b], t₁, ?_, hPM⟩
      unfold Reach
      rw [applyChain_append]
      unfold Reach at hR
      rw [hR]
      show applyChain t [b] = _
      unfold applyChain
      rw [h₂]
      rfl
  | rollback tgt =>
    have hRM := rollbackToHeight_mirror hM tgt
    dsimp only [applyOp]
    rcases h₁ : rollbackToHeight s tgt with e₁ | s₁ <;>
      rcases h₂ : rollbackToHeight t tgt with e₂ | t₁ <;> rw [h₁, h₂] at hRM
    · exact ⟨bs, t, hR, hM⟩
    · cases hRM
    · cases hRM
    · obtain ⟨bs', t', hR', hM'⟩ := reach_rollback hR h₂
      exact ⟨bs', t', hR', mirror_trans hRM hM'⟩

theorem reachable_empty : Reachable Store.empty := ⟨[], Store.empty, rfl, mirror_refl _⟩

/-- Every state produced by a sequence of submissions and rollbacks
mirrors some accepted chain state. -/
theorem run_reachable (ops : List Op) : Reachable (run ops) := by
  unfold run
  have hgen : ∀ (l : List Op) (s : Store), Reachable s → Reachable (l.foldl applyOp s) := by
    intro l
    induction l with
    | nil =>
      intro s hs
      exact hs
    | cons op rest ih =>
      intro s hs
      exact ih _ (applyOp_reachable hs op)
  exact hgen ops Store.empty reachable_empty

theorem sortStrings_sorted (l : List String) :
    List.Pairwise (fun a b : String => a ≤ b) (sortStrings l) := by
  have htrans : ∀ a b c : String, decide (a ≤ b) = true → decide (b ≤ c) = true →
      decide (a ≤ c) = true := fun a b c hab hbc =>
    decide_eq_true (le_trans (of_decide_eq_true hab) (of_decide_eq_true hbc))
  have htotal : ∀ a b : String, (decide (a ≤ b) || decide (b ≤ a)) = true := by
    intro a b
    simpa using le_total a b
  have h := List.sorted_mergeSort htrans htotal l
  exact h.imp (fun hx => of_decide_eq_true hx)

theorem sortStrings_perm_eq {l₁ l₂ : List String} (h : l₁.Perm l₂) :
    sortStrings l₁ = sortStrings l₂ :=
  List.eq_of_perm_of_sorted
    (((List.mergeSort_perm l₁ _).trans h).trans (List.mergeSort_perm l₂ _).symm)
    (sortStrings_sorted l₁) (sortStrings_sorted l₂)

theorem computeBlockId_perm {ids₁ ids₂ : List String} (h : ids₁.Perm ids₂) (n : Nat) :
    computeBlockId n ids₁ = computeBlockId n ids₂ := by
  unfold computeBlockId
  rw [sortStrings_perm_eq h]

theorem mirror_stateAgrees {s t : Store} (hM : Mirror s t) : StateAgrees s t := by
  obtain ⟨⟨hb, ht, ho, _⟩, hv⟩ := hM
  exact ⟨fun r => by rw [hb], fun r => by rw [ht], fun o => by rw [ho], hv⟩

/-- Every reachable state satisfies I5: the cached balance view equals the
computed balance of every address. -/
theorem balView_reachable {s : Store} (h : Reachable s) :
    ∀ a, getAddressBalance s a = calculateAddressBalance s a := by
  obtain ⟨bs, t, hR, ⟨⟨hb, ht, ho, hi⟩, hv⟩⟩ := h
  have hC := reach_chainInv hR
  intro a
  rw [hv a, hC.sinv.balView a]
  unfold calculateAddressBalance
  rw [ho]

/-- Every reachable state satisfies I1: the stored heights are exactly
`1, …, H` in order. -/
theorem heights_reachable {s : Store} (h : Reachable s) :
    ∃ H, s.blocks.map (fun b => b.2) = List.range' 1 H := by
  obtain ⟨bs, t, hR, ⟨⟨hb, _, _, _⟩, _⟩⟩ := h
  have hC := reach_chainInv hR
  refine ⟨bs.length, ?_⟩
  rw [hb, hC.blocks_eq, List.map_map]
  exact hC.heights_eq

theorem validateBlock_invalidHeight {s : Store} {b : Block}
    (h : b.height ≠ expectedHeight s) :
    validateBlock s b = .error (.invalidHeight (expectedHeight s) b.height) := by
  unfold validateBlock
  rw [if_pos (by simpa using h)]

theorem validateInputs_doubleSpend {s : Store} {sp : List String} {inp : TxInput}
    (rest : List TxInput) (h : sp.contains (outputKey inp.txId inp.index) = true) :
    validateInputs s sp (inp :: rest) = .error (.doubleSpend inp.txId inp.index) := by
  unfold validateInputs
  rw [if_pos h]

theorem validateInputs_nonexistent {s : Store} {sp : List String} {inp : TxInput}
    (rest : List TxInput) (hns : sp.contains (outputKey inp.txId inp.index) = false)
    (hf : findOutput s inp.txId inp.index = none) :
    validateInputs s sp (inp :: rest) = .error (.nonexistentOutput inp.txId inp.index) := by
  unfold validateInputs
  rw [if_neg (by rw [hns]; exact Bool.false_ne_true), getOutputValue_none hf]

theorem validateInputs_alreadySpent {s : Store} {sp : List String} {inp : TxInput}
    {o : OutputRow} (rest : List TxInput)
    (hns : sp.contains (outputKey inp.txId inp.index) = false)
    (hf : findOutput s inp.txId inp.index = some o) (hsp : o.spent = true) :
    validateInputs s sp (inp :: rest) = .error (.alreadySpent inp.txId inp.index) := by
  unfold validateInputs
  rw [if_neg (by rw [hns]; exact Bool.false_ne_true), getOutputValue_spent hf hsp]

theorem validateTransactions_head {s : Store} {sp sp₂ : List String} {inSum : Int}
    {u : Transaction} (rest : List Transaction)
    (h : validateInputs s sp u.inputs = .ok (sp₂, inSum)) :
    (u.inputs ≠ [] → inSum ≠ u.outputs.foldl (fun acc o => acc + o.value) 0 →
      validateTransactions s sp (u :: rest) =
        .error (.sumMismatch u.id inSum (u.outputs.foldl (fun acc o => acc + o.value) 0))) ∧
    ((u.inputs = [] ∨ inSum = u.outputs.foldl (fun acc o => acc + o.value) 0) →
      validateTransactions s sp (u :: rest) = validateTransactions s sp₂ rest) := by
  constructor
  · intro hne hsum
    unfold validateTransactions
    rw [h]
    dsimp only
    rw [if_pos]
    simp only [Bool.and_eq_true, decide_eq_true_eq, bne_iff_ne, ne_eq]
    exact ⟨by simpa using List.length_pos.mpr hne, hsum⟩
  · intro hor
    have hside : ¬((decide (u.inputs.length > 0) &&
        inSum != u.outputs.foldl (fun acc o => acc + o.value) 0) = true) := by
      intro hcon
      simp only [Bool.and_eq_true, decide_eq_true_eq, bne_iff_ne, ne_eq] at hcon
      rcases hor with hnil | heq
      · rw [hnil] at hcon
        simp at hcon
      · exact hcon.2 heq
    conv_lhs => unfold validateTransactions
    rw [h]
    dsimp only
    rw [if_neg hside]

theorem processBlock_error {s : Store} {b : Block} {e : PErr}
    (h : processBlock s b = .error e) :
    (∃ v, validateBlock s b = .error v ∧ e = .validation v) ∨
    (validateBlock s b = .ok () ∧ ∃ m, applyBlock s b = .error m ∧ e = .store m) := by
  unfold processBlock at h
  split at h
  · rename_i v hv
    left
    exact ⟨v, hv, (Except.error.inj h).symm⟩
  · rename_i u hu
    right
    cases u
    split at h
    · rename_i m hm
      exact ⟨hu, m, hm, (Except.error.inj h).symm⟩
    · cases h

theorem applyOp_submit_error {s : Store} {b : Block} {e : PErr}
    (h : processBlock s b = .error e) : applyOp s (.submit b) = s := by
  dsimp only [applyOp]
  rw [h]

theorem applyOp_rollback_error {s : Store} {t : Int} {e : String}
    (h : rollbackToHeight s t = .error e) : applyOp s (.rollback t) = s := by
  dsimp only [applyOp]
  rw [h]

theorem delete_blocks_mem (s : Store) (h : Int) (r : String × Nat) :
    r ∈ (deleteBlocksAboveHeight s h).blocks ↔ r ∈ s.blocks ∧ ¬((r.2 : Int) > h) := by
  show r ∈ s.blocks.filter _ ↔ _
  rw [List.mem_filter]
  simp

/-! ## The claims -/

/-- C1: rollback is the exact inverse of apply — for every chain `B1..Bk`
of blocks accepted in order from the empty store and every `j ≤ k`,
`rollbackToHeight(j)` succeeds and its result agrees with the state
obtained by applying `B1..Bj` only, compared on the block set, the
transaction set, the output set with spent flags, and the balance view
(absent address rows read as 0). -/
theorem C1_rollback_inverse {bs : List Block} {s : Store} (hR : Reach bs s)
    (j : Nat) (hj : j ≤ bs.length) :
    ∃ s' sj, rollbackToHeight s (j : Int) = .ok s' ∧
      Reach (bs.take j) sj ∧ StateAgrees s' sj := by
  have hC := reach_chainInv hR
  have hbh : s.blocks.map (fun b => b.2) = List.range' 1 bs.length := by
    rw [hC.blocks_eq, List.map_map]
    exact hC.heights_eq
  have hgh := getCurrentHeight_of_heights hbh
  by_cases hz : bs.length = 0
  · have hj0 : j = 0 := by omega
    have hbs : bs = [] := List.length_eq_zero.mp hz
    refine ⟨s, s, ?_, ?_, mirror_stateAgrees (mirror_refl s)⟩
    · unfold rollbackToHeight
      rw [if_neg (by omega : ¬((j : Int) < 0)), hgh, if_pos hz]
    · rw [hj0, List.take_zero, ← hbs]
      exact hR
  · by_cases hje : j = bs.length
    · refine ⟨s, s, ?_, ?_, mirror_stateAgrees (mirror_refl s)⟩
      · unfold rollbackToHeight
        rw [if_neg (by omega : ¬((j : Int) < 0)), hgh, if_neg hz]
        dsimp only
        rw [if_pos (by omega : (j : Int) ≥ (bs.length : Int))]
      · rw [hje, List.take_length]
        exact hR
    · have hjlt : j < bs.length := by omega
      obtain ⟨sj, hRj⟩ := reach_prefix hR j
      refine ⟨rollbackMutation s (j : Int), sj, ?_, hRj,
        mirror_stateAgrees (rollbackMutation_mirror hC hRj)⟩
      unfold rollbackToHeight
      rw [if_neg (by omega : ¬((j : Int) < 0)), hgh, if_neg hz]
      dsimp only
      rw [if_neg (by omega : ¬((j : Int) ≥ (bs.length : Int)))]

theorem C1_witness :
    Reach [] Store.empty ∧ 0 ≤ ([] : List Block).length ∧
    (∃ s' sj, rollbackToHeight Store.empty ((0 : Nat) : Int) = .ok s' ∧
      Reach (([] : List Block).take 0) sj ∧ StateAgrees s' sj) :=
  ⟨rfl, Nat.le_refl 0, @C1_rollback_inverse [] Store.empty rfl 0 (Nat.le_refl 0)⟩

/-- C2: balance agreement (I5 / P2) — after any sequence of committed
operations (block applies and rollbacks) from the empty store, for every
address the cached balance row (absence read as 0) equals the sum of the
values of its unspent outputs; equivalently `get_balance` agrees with the
computed balance at every quiescent state. -/
theorem C2_balance_agreement (ops : List Op) (a : String) :
    getCachedBalance (run ops) a = getBalance (run ops) a ∧
    getAddressBalance (run ops) a = calculateAddressBalance (run ops) a := by
  have h := balView_reachable (run_reachable ops) a
  exact ⟨h, h⟩

theorem C2_witness :
    getCachedBalance (run []) "a" = getBalance (run []) "a" ∧
    getAddressBalance (run []) "a" = calculateAddressBalance (run []) "a" :=
  C2_balance_agreement [] "a"

/-- C3 counterexample: `getBalance` does not read the cached
`AddressBalance` relation.  On a store whose cache row for `addr` carries
5 while the unspent outputs of `addr` sum to 10, `getBalance` returns the
computed 10, not the cached 5 — refuting the claim that the query path
reads the cache. -/
theorem C3_counterexample :
    getBalance cexStore "addr" = 10 ∧ getCachedBalance cexStore "addr" = 5 ∧
    getBalance cexStore "addr" ≠ getCachedBalance cexStore "addr" :=
  ⟨by decide, by decide, by decide⟩

/-- C3 (amended): for every address, `getBalance` computes its result
directly as the sum of the values of the unspent outputs of that address
(`calculateAddressBalance`); it is the separate cache read
(`getCachedBalance` / `getAddressBalance`) that reads the `AddressBalance`
relation and returns 0 when no row is present. -/
theorem C3_get_balance_computed (s : Store) (a : String) :
    getBalance s a = ((s.outputs.filter (fun o => o.address == a && o.spent == false)).map
      (fun o => o.value)).sum ∧
    (s.balances.find? (fun r => r.1 == a) = none → getCachedBalance s a = 0) := by
  refine ⟨rfl, fun h => ?_⟩
  unfold getCachedBalance getAddressBalance
  rw [h]

theorem C3_witness :
    getBalance cexStore "x" = 0 ∧
    (cexStore.balances.find? (fun r => r.1 == "x") = none →
      getCachedBalance cexStore "x" = 0) :=
  C3_get_balance_computed cexStore "x"

/-- C4: for every input examined in submission order, the validator fails
with the double-spend error when the referenced key was already consumed
by an earlier input of the same block; otherwise with the
non-existent-output error when no such output exists in the store;
otherwise with the already-spent error when it exists with
`spent = TRUE`; the three error codes are pairwise distinct.  (The first
clause fires regardless of the store lookup, and the later clauses
require the earlier conditions to have failed, which is exactly the
checking order.) -/
theorem C4_input_error_order (s : Store) (sp : List String) (inp : TxInput)
    (rest : List TxInput) :
    (sp.contains (outputKey inp.txId inp.index) = true →
      validateInputs s sp (inp :: rest) = .error (.doubleSpend inp.txId inp.index)) ∧
    (sp.contains (outputKey inp.txId inp.index) = false →
      findOutput s inp.txId inp.index = none →
      validateInputs s sp (inp :: rest) = .error (.nonexistentOutput inp.txId inp.index)) ∧
    (∀ o, sp.contains (outputKey inp.txId inp.index) = false →
      findOutput s inp.txId inp.index = some o → o.spent = true →
      validateInputs s sp (inp :: rest) = .error (.alreadySpent inp.txId inp.index)) ∧
    (VErr.doubleSpend inp.txId inp.index ≠ VErr.nonexistentOutput inp.txId inp.index ∧
      VErr.doubleSpend inp.txId inp.index ≠ VErr.alreadySpent inp.txId inp.index ∧
      VErr.nonexistentOutput inp.txId inp.index ≠ VErr.alreadySpent inp.txId inp.index) :=
  ⟨validateInputs_doubleSpend rest, validateInputs_nonexistent rest,
    fun _ h1 h2 h3 => validateInputs_alreadySpent rest h1 h2 h3,
    fun h => VErr.noConfusion h, fun h => VErr.noConfusion h, fun h => VErr.noConfusion h⟩

theorem C4_witness :
    validateInputs c4Store ["spentT:2"] [⟨"spentT", 2⟩] = .error (.doubleSpend "spentT" 2) ∧
    validateInputs c4Store [] [⟨"missing", 1⟩] = .error (.nonexistentOutput "missing" 1) ∧
    validateInputs c4Store [] [⟨"spentT", 2⟩] = .error (.alreadySpent "spentT" 2) :=
  ⟨(C4_input_error_order c4Store ["spentT:2"] ⟨"spentT", 2⟩ []).1 (by decide),
    (C4_input_error_order c4Store [] ⟨"missing", 1⟩ []).2.1 (by decide) (by decide),
    (C4_input_error_order c4Store [] ⟨"spentT", 2⟩ []).2.2.1 ⟨"spentT", 2, "a", 5, true⟩
      (by decide) (by decide) (by decide)⟩

/-- C5: conservation — for a transaction whose inputs all resolve (their
running sum being `inSum`), validation fails with the sum-mismatch error
exactly when the transaction has at least one input and `inSum` differs
from the sum of its own output values; otherwise validation proceeds;
and the sum-mismatch message spells out both sums
("Inputs: …", "Outputs: …").  Zero-input transactions are exempt. -/
theorem C5_sum_mismatch (s : Store) (sp sp₂ : List String) (inSum : Int)
    (u : Transaction) (rest : List Transaction)
    (h : validateInputs s sp u.inputs = .ok (sp₂, inSum)) :
    (u.inputs ≠ [] → inSum ≠ u.outputs.foldl (fun acc o => acc + o.value) 0 →
      validateTransactions s sp (u :: rest) =
        .error (.sumMismatch u.id inSum (u.outputs.foldl (fun acc o => acc + o.value) 0))) ∧
    ((u.inputs = [] ∨ inSum = u.outputs.foldl (fun acc o => acc + o.value) 0) →
      validateTransactions s sp (u :: rest) = validateTransactions s sp₂ rest) ∧
    (∀ i o : Int, (VErr.sumMismatch u.id i o).message =
      "Input/output sum mismatch for transaction " ++ u.id ++ ". Inputs: " ++ toString i ++
        ", Outputs: " ++ toString o) := by
  obtain ⟨h1, h2⟩ := validateTransactions_head rest h
  exact ⟨h1, h2, fun i o => rfl⟩

theorem C5_witness :
    validateInputs c5Store [] c5Tx.inputs = .ok (["t1:0"], 10) ∧
    ((c5Tx.inputs ≠ [] → (10 : Int) ≠ 8 →
      validateTransactions c5Store [] [c5Tx] = .error (.sumMismatch "txx" 10 8)) ∧
    ((c5Tx.inputs = [] ∨ (10 : Int) = 8) →
      validateTransactions c5Store [] [c5Tx] = validateTransactions c5Store ["t1:0"] []) ∧
    (∀ i o : Int, (VErr.sumMismatch "txx" i o).message =
      "Input/output sum mismatch for transaction " ++ "txx" ++ ". Inputs: " ++ toString i ++
        ", Outputs: " ++ toString o)) :=
  ⟨rfl, C5_sum_mismatch c5Store [] ["t1:0"] 10 c5Tx [] rfl⟩

/-- C6: linear history (I1 / P1) — after any sequence of accepted submits
and rollbacks from the empty store the stored heights are exactly
`1, …, H` for some `H ≥ 0`, gapless and duplicate-free; a submit is
accepted only at the expected height (`H+1`, i.e. 1 on an empty store)
and rejected with the invalid-height error otherwise; and the rollback
deletion removes exactly the block rows with height above the target. -/
theorem C6_linear_history (ops : List Op) :
    (∃ H, (run ops).blocks.map (fun b => b.2) = List.range' 1 H) ∧
    (∀ s b, validateBlock s b = .ok () → b.height = expectedHeight s) ∧
    (∀ s b, b.height ≠ expectedHeight s →
      validateBlock s b = .error (.invalidHeight (expectedHeight s) b.height)) ∧
    (∀ s (h : Int) r, r ∈ (deleteBlocksAboveHeight s h).blocks ↔
      r ∈ s.blocks ∧ ¬((r.2 : Int) > h)) :=
  ⟨heights_reachable (run_reachable ops), fun _ _ h => (validateBlock_ok h).1,
    fun _ _ h => validateBlock_invalidHeight h, fun s h r => delete_blocks_mem s h r⟩

theorem C6_witness :
    (∃ H, (run []).blocks.map (fun b => b.2) = List.range' 1 H) ∧
    (∀ s b, validateBlock s b = .ok () → b.height = expectedHeight s) ∧
    (∀ s b, b.height ≠ expectedHeight s →
      validateBlock s b = .error (.invalidHeight (expectedHeight s) b.height)) ∧
    (∀ s (h : Int) r, r ∈ (deleteBlocksAboveHeight s h).blocks ↔
      r ∈ s.blocks ∧ ¬((r.2 : Int) > h)) :=
  C6_linear_history []

/-- C7: the canonical block id is the lowercase-hex SHA-256 of the decimal
height concatenated with the transaction ids sorted lexicographically
ascending and joined without separators; the computed id is invariant
under any permutation of the id list; and, with the height and economic
checks passing, the hash check accepts exactly when the block's `id`
field equals this canonical value as a string (byte-exactly). -/
theorem C7_block_id_canonical (n : Nat) (ids ids₂ : List String) (s : Store) (b : Block)
    (hperm : ids.Perm ids₂) :
    computeBlockId n ids = sha256Hex (toString n ++ String.join (sortStrings ids)) ∧
    (sortStrings ids).Perm ids ∧
    List.Pairwise (fun a b : String => a ≤ b) (sortStrings ids) ∧
    computeBlockId n ids = computeBlockId n ids₂ ∧
    (b.height = expectedHeight s →
      (∃ sp, validateTransactions s [] b.transactions = .ok sp) →
      (validateBlock s b = .ok () ↔
        b.id = computeBlockId b.height (b.transactions.map (fun t => t.id)))) := by
  refine ⟨rfl, List.mergeSort_perm ids _, sortStrings_sorted ids,
    computeBlockId_perm hperm n, ?_⟩
  intro hh hex
  obtain ⟨sp, hst⟩ := hex
  constructor
  · intro hok
    exact (validateBlock_ok hok).2.2
  · intro hid
    unfold validateBlock
    rw [if_neg (by simp [hh]), hst]
    dsimp only
    rw [if_neg (by simp [hid])]

theorem C7_witness :
    (["b", "a"] : List String).Perm ["a", "b"] ∧
    (computeBlockId 1 ["b", "a"] =
      sha256Hex (toString 1 ++ String.join (sortStrings ["b", "a"])) ∧
    (sortStrings ["b", "a"]).Perm ["b", "a"] ∧
    List.Pairwise (fun a b : String => a ≤ b) (sortStrings ["b", "a"]) ∧
    computeBlockId 1 ["b", "a"] = computeBlockId 1 ["a", "b"] ∧
    (badBlock.height = expectedHeight Store.empty →
      (∃ sp, validateTransactions Store.empty [] badBlock.transactions = .ok sp) →
      (validateBlock Store.empty badBlock = .ok () ↔
        badBlock.id = computeBlockId badBlock.height
          (badBlock.transactions.map (fun t => t.id))))) :=
  ⟨by decide, C7_block_id_canonical 1 ["b", "a"] ["a", "b"] Store.empty badBlock (by decide)⟩

/-- C8: failure atomicity — an errored block submission leaves the
committed state exactly as it was, the surfaced error being either the
validation failure itself or the store error that aborted the write
transaction; and an errored rollback likewise leaves the state
unchanged. -/
theorem C8_atomicity (s : Store) (b : Block) (t : Int) :
    (∀ e, processBlock s b = .error e → applyOp s (.submit b) = s ∧
      ((∃ v, validateBlock s b = .error v ∧ e = .validation v) ∨
        (validateBlock s b = .ok () ∧ ∃ m, applyBlock s b = .error m ∧ e = .store m))) ∧
    (∀ e, rollbackToHeight s t = .error e → applyOp s (.rollback t) = s) :=
  ⟨fun _ h => ⟨applyOp_submit_error h, processBlock_error h⟩,
    fun _ h => applyOp_rollback_error h⟩

theorem C8_witness :
    processBlock Store.empty badBlock = .error (.validation (.invalidHeight 1 5)) ∧
    rollbackToHeight Store.empty (-1) = .error "Target height must be non-negative" ∧
    applyOp Store.empty (.submit badBlock) = Store.empty ∧
    applyOp Store.empty (.rollback (-1)) = Store.empty :=
  ⟨rfl, rfl,
    ((C8_atomicity Store.empty badBlock (-1)).1 (.validation (.invalidHeight 1 5)) rfl).1,
    (C8_atomicity Store.empty badBlock (-1)).2 "Target height must be non-negative" rfl⟩

/-- C9: rollback no-op (P6) — for every state and every non-negative
target, if no blocks exist or the target is at or above the current
maximum height, `rollbackToHeight` returns success with the very same
store (every relation unchanged). -/
theorem C9_rollback_noop (s : Store) (j : Int) (hj : 0 ≤ j)
    (h : getCurrentHeight s = none ∨
      ∃ h0, getCurrentHeight s = some h0 ∧ (h0 : Int) ≤ j) :
    rollbackToHeight s j = .ok s := by
  unfold rollbackToHeight
  rw [if_neg (by omega)]
  rcases h with hn | ⟨h0, hs, hle⟩
  · rw [hn]
  · rw [hs]
    dsimp only
    rw [if_pos (by omega)]

theorem C9_witness :
    (0 : Int) ≤ 5 ∧
    (getCurrentHeight c9Store = none ∨
      ∃ h0, getCurrentHeight c9Store = some h0 ∧ (h0 : Int) ≤ 5) ∧
    rollbackToHeight c9Store 5 = .ok c9Store :=
  ⟨by decide, Or.inr ⟨1, by decide, by decide⟩,
    C9_rollback_noop c9Store 5 (by decide) (Or.inr ⟨1, by decide, by decide⟩)⟩

/-- C10: intra-block spending is impossible at the public interface — an
input whose referenced output key is absent from the committed store is
rejected with the non-existent-output error (the lookup consults only the
store, never the block's own outputs); every accepted block's inputs
reference outputs already present and unspent in the committed pre-state;
and a processed block is validated against the pre-state before any of
its rows are inserted. -/
theorem C10_committed_store_only (s : Store) (sp : List String) (inp : TxInput)
    (rest : List TxInput) (b : Block) (s' : Store) :
    (sp.contains (outputKey inp.txId inp.index) = false →
      findOutput s inp.txId inp.index = none →
      validateInputs s sp (inp :: rest) = .error (.nonexistentOutput inp.txId inp.index)) ∧
    (validateBlock s b = .ok () → ∀ u ∈ b.transactions, ∀ i ∈ u.inputs,
      ∃ o ∈ s.outputs, o.txId = i.txId ∧ o.index = i.index ∧ o.spent = false) ∧
    (processBlock s b = .ok s' → validateBlock s b = .ok ()) := by
  refine ⟨fun h1 h2 => validateInputs_nonexistent rest h1 h2, ?_, ?_⟩
  · intro hok u hu i hi
    obtain ⟨_, ⟨sp0, hst⟩, _⟩ := validateBlock_ok hok
    obtain ⟨o, hfo, hsp⟩ := validateTransactions_ok_refs hst u hu i hi
    obtain ⟨hot, hoi, _⟩ := findOutput_decomp hfo
    exact ⟨o, findOutput_mem hfo, hot, hoi, hsp⟩
  · intro h
    unfold processBlock at h
    split at h
    · cases h
    · rename_i u hu
      cases u
      exact hu

theorem C10_witness :
    (([] : List String).contains (outputKey "missing" 0) = false →
      findOutput c4Store "missing" 0 = none →
      validateInputs c4Store [] [⟨"missing", 0⟩] =
        .error (.nonexistentOutput "missing" 0)) ∧
    (validateBlock c4Store badBlock = .ok () →
      ∀ u ∈ badBlock.transactions, ∀ i ∈ u.inputs,
      ∃ o ∈ c4Store.outputs, o.txId = i.txId ∧ o.index = i.index ∧ o.spent = false) ∧
    (processBlock c4Store badBlock = .ok Store.empty →
      validateBlock c4Store badBlock = .ok ()) :=
  C10_committed_store_only c4Store [] ⟨"missing", 0⟩ [] badBlock Store.empty

end UtxoIndexer
